import Mathlib

/-!
Verification of the reconciliation engine of `baserow-splitter.py`.

The Python program keeps a set of "partition" tables synchronized with the
rows of a single primary table.  This file gives a shallow embedding of the
program's pure logic: Python dictionaries become association lists with
Python's update semantics (overwrite in place, append new keys at the end,
iteration in insertion order), dynamically shaped cell values become the
inductive type `Val`, and each function of the source becomes a Lean
definition of the same name.  The HTTP calls of the source are modelled by
the `Op` plan that the sync loop issues (create / update / delete), and by
an explicit state-transition function for the target table.
-/

namespace BaserowSplitter

/-! ## Python dictionaries as association lists

A Python `dict` keeps at most one entry per key, preserves the position of a
key on overwrite, appends new keys at the end, and iterates in insertion
order.  `alSet` implements `d[k] = v` (replace the first — hence, for lists
built only by `alSet`, the only — binding, else append), `alGet` implements
`d.get(k)` and `k in d`. -/

def alGet {α : Type} : List (String × α) → String → Option α
  | [], _ => none
  | p :: l, k => if p.1 == k then some p.2 else alGet l k

def alSet {α : Type} : List (String × α) → String → α → List (String × α)
  | [], k, v => [(k, v)]
  | p :: l, k, v => if p.1 == k then (k, v) :: l else p :: alSet l k v

theorem alGet_alSet_self {α : Type} (l : List (String × α)) (k : String) (v : α) :
    alGet (alSet l k v) k = some v := by
  induction l with
  | nil => simp [alGet, alSet]
  | cons p l ih =>
    by_cases h : p.1 = k
    · simp [alGet, alSet, h]
    · simp only [alSet, alGet, beq_iff_eq, h, if_false]
      exact ih

theorem alGet_alSet_ne {α : Type} (l : List (String × α)) (k k' : String) (v : α)
    (h : k' ≠ k) : alGet (alSet l k v) k' = alGet l k' := by
  have hk : ¬(k = k') := fun hh => h hh.symm
  induction l with
  | nil => simp [alGet, alSet, hk]
  | cons p l ih =>
    by_cases hp : p.1 = k
    · subst hp
      simp [alGet, alSet, hk]
    · simp only [alSet, alGet, beq_iff_eq, hp, if_false]
      by_cases hp' : p.1 = k'
      · simp [hp']
      · simp [hp', ih]

theorem alGet_mem {α : Type} {l : List (String × α)} {k : String} {v : α}
    (h : alGet l k = some v) : (k, v) ∈ l := by
  induction l with
  | nil => simp [alGet] at h
  | cons p l ih =>
    simp only [alGet, beq_iff_eq] at h
    by_cases hp : p.1 = k
    · simp only [hp, if_true, Option.some.injEq] at h
      cases p with
      | mk pk pv =>
        simp only at hp h
        subst hp h
        exact List.mem_cons_self _ _
    · simp only [hp, if_false] at h
      exact List.mem_cons_of_mem _ (ih h)

/-! ## Cell values

Baserow cells are dynamically shaped Python values: `None`, strings,
integers, single-select options (a dict carrying the option label under the
key `value` and the option id under `id`), and lists of any of these.
`pyStr` is Python's `str()` on these shapes and `pyValRepr` Python's
`repr()`; `truthy` is Python truthiness as tested by `if val:`. -/

inductive Val : Type where
  | vnull : Val
  | vstr (s : String) : Val
  | vint (n : Int) : Val
  | vopt (label : String) (ident : Nat) : Val
  | vlist (items : List Val) : Val

/-- Python's single-quote character, kept out of string literals. -/
def sq : String := String.singleton (Char.ofNat 39)

/-- Python's opening brace character, kept out of string literals. -/
def lbr : String := String.singleton (Char.ofNat 123)

/-- Python's closing brace character, kept out of string literals. -/
def rbr : String := String.singleton (Char.ofNat 125)

mutual

/-- Python `repr` of a cell value (the rendering `str` uses for the elements
of a list and for a dict).  A select dict renders with its `value` and `id`
entries. -/
def pyValRepr : Val → String
  | .vnull => "None"
  | .vstr s => sq ++ s ++ sq
  | .vint n => toString n
  | .vopt label ident =>
      lbr ++ sq ++ "value" ++ sq ++ ": " ++ sq ++ label ++ sq ++ ", " ++
        sq ++ "id" ++ sq ++ ": " ++ toString ident ++ rbr
  | .vlist items => "[" ++ pyListRepr items ++ "]"

/-- Comma-separated `repr`s of the elements of a list. -/
def pyListRepr : List Val → String
  | [] => ""
  | [x] => pyValRepr x
  | x :: xs => pyValRepr x ++ ", " ++ pyListRepr xs

end

/-- Python `str()` of a cell value. -/
def pyStr : Val → String
  | .vnull => "None"
  | .vstr s => s
  | .vint n => toString n
  | .vopt label ident => pyValRepr (.vopt label ident)
  | .vlist items => pyValRepr (.vlist items)

/-- Python truthiness of a cell value (`if val:`). -/
def Val.truthy : Val → Bool
  | .vnull => false
  | .vstr s => !(s == "")
  | .vint n => !(n == 0)
  | .vopt _ _ => true
  | .vlist items => !items.isEmpty

/-! ## Rows

A Baserow row is its integer id together with a mapping from field keys
(strings of the form `field_<id>`) to cell values.  `row.get(k)` returns
Python `None` both for a missing key and for a stored null, which `Val.vnull`
captures for both. -/

structure Row where
  id : Nat
  cells : List (String × Val)

/-- Python `row.get(key)`, with a missing key and a stored null both read as
`Val.vnull` — exactly how the source treats them. -/
def Row.get (r : Row) (k : String) : Val := (alGet r.cells k).getD .vnull

example : pyStr (.vint 37) = "37" := rfl
example : pyStr (.vstr "abc") = "abc" := rfl
example : Val.truthy (.vstr "") = false := rfl
example : Val.truthy (.vlist []) = false := rfl
example : (Row.mk 5 [("a", .vint 1)]).get "b" = .vnull := rfl

/-! ## Filter Evaluator — `row_passes_filters` (source lines 51–70)

The source normalizes a cell into the list `current_values` of strings
(list → each element's `value` label if a dict, else `str(element)`;
dict → its `value` label; `None` → empty; anything else → `str(value)`),
then requires, for every configured rule, an overlap with the rule's
allowed values. -/

/-- The `current_values` extraction of `row_passes_filters`. -/
def current_values : Val → List String
  | .vlist items => items.map (fun i =>
      match i with
      | .vopt label _ => label
      | v => pyStr v)
  | .vopt label _ => [label]
  | .vnull => []
  | v => [pyStr v]

/-- `row_passes_filters(row)` with the module-level `ROW_FILTERS` dict passed
explicitly.  Returns `False` on the first rule with no overlap. -/
def row_passes_filters (row_filters : List (String × List String)) (row : Row) : Bool :=
  row_filters.all (fun rule =>
    (current_values (row.get rule.1)).any (fun v => rule.2.contains v))

/-! ## Categorizer — the grouping loop of `sync_database` (source lines 131–147)

`categorized` is a Python dict from label to the list of rows appended under
that label; we model it as a function from labels to row lists (the claims
do not depend on the dict's key order). -/

/-- The list a raw partition-field value is iterated over: the list itself,
or the one-element list around a non-list value (`items` in the source). -/
def items_of (raw_val : Val) : List Val :=
  match raw_val with
  | .vlist items => items
  | v => [v]

/-- Label extraction for one item: `item.get(&quot;value&quot;)` for a dict, else
`str(item)` (the source's `label`). -/
def item_label : Val → String
  | .vopt label _ => label
  | v => pyStr v

/-- `categorized.setdefault(label, []).append(row)`. -/
def setdefault_append (d : String → List Row) (label : String) (row : Row) :
    String → List Row :=
  fun k => if k == label then d k ++ [row] else d k

/-- Processing of one row by the grouping loop: skip a falsy raw value, else
append the row under every item's non-empty label. -/
def categorize_row (control_key : String) (d : String → List Row) (row : Row) :
    String → List Row :=
  let raw_val := row.get control_key
  if raw_val.truthy then
    (items_of raw_val).foldl (fun d item =>
      let label := item_label item
      if label == "" then d else setdefault_append d label row) d
  else d

/-- The grouping loop over all filtered rows (`categorized` in the source). -/
def categorized (control_key : String) (filtered_rows : List Row) :
    String → List Row :=
  filtered_rows.foldl (categorize_row control_key) (fun _ => [])

/-! ## Schema Mapper — `get_field_and_option_map` (source lines 72–94) -/

/-- A Baserow field definition: id, name, and — when the field serializer
exposes `select_options` — the ordered option (value, id) pairs. -/
structure Field where
  id : Nat
  name : String
  select_options : Option (List (String × Int))

/-- The key `field_<id>` under which a field's cell is stored in a row. -/
def field_key (f : Field) : String := "field_" ++ toString f.id

/-- The dict `{f[&quot;name&quot;]: f for f in target_fields}` (last name wins). -/
def target_name_map (target_fields : List Field) : List (String × Field) :=
  target_fields.foldl (fun m f => alSet m f.name f) []

/-- One option mapping `{opt[&quot;value&quot;]: opt[&quot;id&quot;] for opt in tf[&quot;select_options&quot;]}`. -/
def option_value_map (opts : List (String × Int)) : List (String × Int) :=
  opts.foldl (fun d o => alSet d o.1 o.2) []

/-- `get_field_and_option_map(target_table_id, primary_field_defs)` with the
target's fetched fields and the tracker column name passed explicitly.
Returns `(field_mapping, option_mapping, tracker_key)`; `tracker_key` is
`none` when no target field is named `primary_id_column_name`. -/
def get_field_and_option_map (primary_id_column_name : String)
    (target_fields : List Field) (primary_field_defs : List Field) :
    List (String × String) × List (String × List (String × Int)) × Option String :=
  let tmap := target_name_map target_fields
  let maps := primary_field_defs.foldl
    (fun (acc : List (String × String) × List (String × List (String × Int))) pf =>
      match alGet tmap pf.name with
      | some tf =>
          let t_id_key := field_key tf
          let fm := alSet acc.1 (field_key pf) t_id_key
          match tf.select_options with
          | some opts => (fm, alSet acc.2 t_id_key (option_value_map opts))
          | none => (fm, acc.2)
      | none => acc)
    ([], [])
  let tracker_key := (alGet tmap primary_id_column_name).map field_key
  (maps.1, maps.2, tracker_key)

/-! ## Reconciler — the per-partition body of `sync_database` (lines 164–205)

The loop body for one partition label: index the target table's current rows
by tracker value, then issue one PATCH (update) or POST (create) per desired
row, then DELETE the orphans.  The issued HTTP mutations are modelled by the
plan type `Op`, in issue order. -/

/-- One row mutation issued against the backing service. -/
inductive Op : Type where
  | create (payload : List (String × Val)) : Op
  | update (target_row_id : Nat) (payload : List (String × Val)) : Op
  | delete (target_row_id : Nat) : Op

def Op.isCreate : Op → Bool
  | .create _ => true
  | _ => false

def Op.isUpdate : Op → Bool
  | .update _ _ => true
  | _ => false

def Op.isDelete : Op → Bool
  | .delete _ => true
  | _ => false

/-- Line 172: `{str(r.get(tracker_key)): r for r in sec_rows if r.get(tracker_key)}` —
the current rows indexed by string-normalized tracker value, truthy trackers
only, later rows overwriting earlier ones with the same key. -/
def sec_by_origin (tracker_key : String) (sec_rows : List Row) : List (String × Row) :=
  sec_rows.foldl
    (fun acc r =>
      if (r.get tracker_key).truthy then alSet acc (pyStr (r.get tracker_key)) r else acc)
    []

/-- The membership key an element of a multi-select list is looked up under:
a dict's `value` label, a bare string itself; a non-string element is never
equal to a string dict key. -/
def option_key : Val → Option String
  | .vopt label _ => some label
  | .vstr s => some s
  | _ => none

/-- The element-wise option translation of a multi-select value (line 188–189):
keep each element whose label (dict → its `value`, bare string → itself; a
non-string element is never equal to a string key) is a key of the option
map, translated to the mapped option id. -/
def option_list_value (m : List (String × Int)) (items : List Val) : Val :=
  .vlist (items.filterMap (fun i =>
    match i with
    | .vopt label _ => (alGet m label).map Val.vint
    | .vstr s => (alGet m s).map Val.vint
    | _ => none))

/-- Payload construction for one desired row (lines 179–193): start from
`{tracker_key: str(row.id)}`, then for each mapped field pair skip a `None`
value, translate through the option map when the target field has one
(multi-select list element-wise; single-select dict via `.get`, which stores
Python `None` for an unmapped label; any other shape is left out), and pass
the value through unchanged when the target field has no option map.
`clone_field_step` is the body of the `for p_key, t_key in f_map.items()`
loop for one mapped pair `pt`. -/
def clone_field_step (opt_map : List (String × List (String × Int))) (p_row : Row)
    (payload : List (String × Val)) (pt : String × String) : List (String × Val) :=
  match p_row.get pt.1 with
  | .vnull => payload
  | val =>
    match alGet opt_map pt.2 with
    | some m =>
      match val with
      | .vlist items => alSet payload pt.2 (option_list_value m items)
      | .vopt label _ =>
          alSet payload pt.2
            (match alGet m label with
             | some oid => .vint oid
             | none => .vnull)
      | _ => payload
    | none => alSet payload pt.2 val

def build_payload (tracker_key : String) (f_map : List (String × String))
    (opt_map : List (String × List (String × Int))) (p_row : Row) :
    List (String × Val) :=
  f_map.foldl (clone_field_step opt_map p_row)
    [(tracker_key, .vstr (toString p_row.id))]

/-- The operation issued for one desired row (lines 195–198): a PATCH against
the indexed row's id when the row's string id is a key of the index, else a
POST. -/
def upsert_op (tracker_key : String) (f_map : List (String × String))
    (opt_map : List (String × List (String × Int)))
    (sec_by : List (String × Row)) (p_row : Row) : Op :=
  match alGet sec_by (toString p_row.id) with
  | some sec => .update sec.id (build_payload tracker_key f_map opt_map p_row)
  | none => .create (build_payload tracker_key f_map opt_map p_row)

/-- The per-partition reconciliation (lines 164–205): the desired-row loop
accumulates `synced_ids` and issues one upsert per desired row, then the
orphan cleanup deletes every indexed row whose key was not synced. -/
def sync_partition (tracker_key : String) (f_map : List (String × String))
    (opt_map : List (String × List (String × Int)))
    (target_rows : List Row) (sec_rows : List Row) : List Op :=
  let sec_by := sec_by_origin tracker_key sec_rows
  let st := target_rows.foldl
    (fun (st : List String × List Op) p_row =>
      (st.1 ++ [toString p_row.id],
       st.2 ++ [upsert_op tracker_key f_map opt_map sec_by p_row]))
    ([], [])
  st.2 ++ sec_by.filterMap (fun kr =>
    if st.1.contains kr.1 then none else some (.delete kr.2.id))

/-! ## The per-partition step and the cycle (lines 151–205)

For each category label whose resolved target table exists, `sync_database`
computes the field/option/tracker mapping and — only when the tracker key is
present (`if not tracker_key: continue`, lines 160–162) — reconciles the
partition.  A cycle's issued mutations are the concatenation of the
partitions' mutations, in partition order. -/

/-- The data of one partition iteration of the loop: the resolved target
table's fields, the desired (categorized primary) rows, and the target's
current rows. -/
structure PartitionData : Type where
  target_fields : List Field
  target_rows : List Row
  sec_rows : List Row

/-- One iteration of the partition loop: skip the table when the tracker
column is missing, else reconcile it. -/
def process_partition (primary_id_column_name : String)
    (fields_to_clone : List Field) (p : PartitionData) : List Op :=
  let maps := get_field_and_option_map primary_id_column_name p.target_fields fields_to_clone
  match maps.2.2 with
  | none => []
  | some tracker_key => sync_partition tracker_key maps.1 maps.2.1 p.target_rows p.sec_rows

/-- The mutations one cycle issues across its partitions, in order. -/
def run_cycle (primary_id_column_name : String) (fields_to_clone : List Field)
    (partitions : List PartitionData) : List Op :=
  (partitions.map (process_partition primary_id_column_name fields_to_clone)).flatten

/-! ## The backing service's state transition

One partition table's state is its row list plus the next fresh row id the
service will assign.  `apply_op` is the effect of one successful mutation:
POST appends a row holding the payload under a fresh id, PATCH merges the
payload into the cells of the row with the given id, DELETE removes it. -/

/-- Merge a payload into existing cells, key by key (a Baserow PATCH is a
partial update). -/
def payload_merge (cells : List (String × Val)) (payload : List (String × Val)) :
    List (String × Val) :=
  payload.foldl (fun c kv => alSet c kv.1 kv.2) cells

/-- The effect of one successful mutation on `(next fresh id, rows)`. -/
def apply_op (st : Nat × List Row) : Op → Nat × List Row
  | .create payload => (st.1 + 1, st.2 ++ [⟨st.1, payload⟩])
  | .update rid payload =>
      (st.1, st.2.map (fun r => if r.id == rid then ⟨r.id, payload_merge r.cells payload⟩ else r))
  | .delete rid => (st.1, st.2.filter (fun r => !(r.id == rid)))

/-- The effect of a successful run of a whole plan. -/
def apply_ops (st : Nat × List Row) (ops : List Op) : Nat × List Row :=
  ops.foldl apply_op st

/-! ## Failure model

`make_request` (lines 42–49) logs a non-ok response and then calls
`raise_for_status()`, which raises; neither the desired-row loop nor the
orphan loop of `sync_database` (lines 195–205) catches, so the exception
propagates out of the cycle to the top-level handler of the main loop.
`attempted fails ops` is therefore the list of mutations the service
actually sees: everything up to and including the first failing one. -/

def attempted (fails : Op → Bool) : List Op → List Op
  | [] => []
  | op :: rest => if fails op then [op] else op :: attempted fails rest

/-! ## Structure of the per-partition plan -/

/-- The `synced_ids` list the desired-row loop accumulates. -/
def desired_ids (target_rows : List Row) : List String :=
  target_rows.map (fun r => toString r.id)

theorem sync_loop_eq (tracker_key : String) (f_map : List (String × String))
    (opt_map : List (String × List (String × Int))) (sec_by : List (String × Row)) :
    ∀ (rows : List Row) (sIds : List String) (ops : List Op),
      rows.foldl
        (fun (st : List String × List Op) p_row =>
          (st.1 ++ [toString p_row.id],
           st.2 ++ [upsert_op tracker_key f_map opt_map sec_by p_row]))
        (sIds, ops)
      = (sIds ++ rows.map (fun r => toString r.id),
         ops ++ rows.map (upsert_op tracker_key f_map opt_map sec_by))
  | [], sIds, ops => by simp
  | r :: rows, sIds, ops => by
      simp only [List.foldl_cons, List.map_cons]
      rw [sync_loop_eq tracker_key f_map opt_map sec_by rows]
      simp

/-- The plan, written declaratively: one upsert per desired row in order,
followed by one delete per unsynced index entry in index order. -/
theorem sync_partition_eq (tracker_key : String) (f_map : List (String × String))
    (opt_map : List (String × List (String × Int)))
    (target_rows : List Row) (sec_rows : List Row) :
    sync_partition tracker_key f_map opt_map target_rows sec_rows
      = target_rows.map (upsert_op tracker_key f_map opt_map (sec_by_origin tracker_key sec_rows))
        ++ (sec_by_origin tracker_key sec_rows).filterMap (fun kr =>
             if (desired_ids target_rows).contains kr.1 then none
             else some (.delete kr.2.id)) := by
  unfold sync_partition
  dsimp only
  rw [sync_loop_eq tracker_key f_map opt_map (sec_by_origin tracker_key sec_rows) target_rows [] []]
  simp [desired_ids]

/-! ## The index of current rows by tracker value (claim C3) -/

theorem sec_by_origin_fold (tracker_key : String) (k : String) :
    ∀ (rows : List Row) (acc : List (String × Row)),
      alGet (rows.foldl
        (fun acc r =>
          if (r.get tracker_key).truthy then alSet acc (pyStr (r.get tracker_key)) r else acc)
        acc) k
      = (rows.reverse.find?
          (fun r => (r.get tracker_key).truthy && (pyStr (r.get tracker_key) == k))).or
          (alGet acc k)
  | [], acc => by simp
  | r :: rows, acc => by
      simp only [List.foldl_cons, List.reverse_cons, List.find?_append]
      rw [sec_by_origin_fold tracker_key k rows]
      have hsingle :
          alGet (if (r.get tracker_key).truthy then alSet acc (pyStr (r.get tracker_key)) r else acc) k
            = (List.find? (fun r => (r.get tracker_key).truthy && (pyStr (r.get tracker_key) == k)) [r]).or
              (alGet acc k) := by
        by_cases ht : (r.get tracker_key).truthy
        · by_cases hk : pyStr (r.get tracker_key) = k
          · subst hk
            simp [ht, alGet_alSet_self, List.find?]
          · have : ¬(pyStr (r.get tracker_key) == k) = true := by simpa using hk
            simp [ht, List.find?, this, alGet_alSet_ne _ _ _ _ (fun h => hk h.symm)]
        · have ht' : (r.get tracker_key).truthy = false := by simpa using ht
          simp [ht', List.find?]
      rw [hsingle]
      cases List.find? (fun r => (r.get tracker_key).truthy && (pyStr (r.get tracker_key) == k))
        rows.reverse <;> simp

/-- Claim C3 (amended): in the index of current target rows by tracker value,
rows whose tracker value is absent (falsy) are never indexed; when several
current rows share one string-normalized tracker value, the index keeps the
last-fetched such row and the earlier ones are silently dropped by dict
overwrite — no error is raised.  Looking up key `k` finds exactly the last
current row whose tracker is truthy and string-normalizes to `k`. -/
theorem C3_index_last_write_wins (tracker_key : String) (sec_rows : List Row) (k : String) :
    alGet (sec_by_origin tracker_key sec_rows) k
      = sec_rows.reverse.find?
          (fun r => (r.get tracker_key).truthy && (pyStr (r.get tracker_key) == k)) := by
  unfold sec_by_origin
  rw [sec_by_origin_fold]
  cases List.find? (fun r => (r.get tracker_key).truthy && (pyStr (r.get tracker_key) == k))
    sec_rows.reverse <;> simp [alGet]

/-- Claim C3, counterexample to the claim as stated: two current rows share
the tracker value `1`; the claim requires both to be excluded from the index
and the duplication to be flagged, but the index maps `1` to the later row. -/
theorem C3_counterexample :
    alGet (sec_by_origin "t" [⟨10, [("t", .vstr "1")]⟩, ⟨20, [("t", .vstr "1")]⟩]) "1"
      = some ⟨20, [("t", .vstr "1")]⟩ := rfl

/-! ## The Filter Evaluator (claim C6) -/

/-- Claim C6: a row passes the filters iff, for every declared rule, the
row's cell value for the rule's field — normalized by `current_values`, an
absent cell normalizing to the empty list — has an element among the rule's
allowed values (AND across rules, OR within a rule); the empty rule set lets
every row pass; and the result is invariant under reordering the rules. -/
theorem C6_filter_evaluator (row_filters : List (String × List String)) (row : Row) :
    (row_passes_filters row_filters row = true
      ↔ ∀ rule ∈ row_filters, ∃ v ∈ current_values (row.get rule.1), v ∈ rule.2)
    ∧ row_passes_filters [] row = true
    ∧ (∀ other : List (String × List String), row_filters.Perm other →
        row_passes_filters row_filters row = row_passes_filters other row) := by
  have key : ∀ l : List (String × List String),
      row_passes_filters l row = true
        ↔ ∀ rule ∈ l, ∃ v ∈ current_values (row.get rule.1), v ∈ rule.2 := by
    intro l
    simp [row_passes_filters, List.all_eq_true, List.any_eq_true, List.elem_iff]
  refine ⟨key row_filters, by simp [row_passes_filters], ?_⟩
  intro other hperm
  refine Bool.coe_iff_coe.mp ?_
  rw [key row_filters, key other]
  constructor
  · intro h rule hr
    exact h rule (hperm.mem_iff.mpr hr)
  · intro h rule hr
    exact h rule (hperm.mem_iff.mp hr)

/-! ## The Categorizer (claim C7) -/

theorem setdefault_append_mem (d : String → List Row) (label : String) (row r : Row)
    (l : String) :
    r ∈ setdefault_append d label row l ↔ r ∈ d l ∨ (l = label ∧ r = row) := by
  unfold setdefault_append
  by_cases h : l = label
  · subst h
    simp
  · have hb : ¬(l == label) = true := by simpa using h
    simp [hb, h]

theorem categorize_items_mem (row : Row) :
    ∀ (items : List Val) (d : String → List Row) (l : String) (r : Row),
      r ∈ (items.foldl (fun d item =>
            let label := item_label item
            if label == "" then d else setdefault_append d label row) d) l
      ↔ r ∈ d l ∨ (r = row ∧ l ≠ "" ∧ ∃ item ∈ items, item_label item = l)
  | [], d, l, r => by simp
  | item :: items, d, l, r => by
      simp only [List.foldl_cons]
      rw [categorize_items_mem row items]
      by_cases h : item_label item = ""
      · have hb : (item_label item == "") = true := by simpa using h
        simp only [hb, if_true]
        constructor
        · rintro (hd | ⟨hr, hl, x, hx, hlab⟩)
          · exact Or.inl hd
          · exact Or.inr ⟨hr, hl, x, List.mem_cons_of_mem _ hx, hlab⟩
        · rintro (hd | ⟨hr, hl, x, hx, hlab⟩)
          · exact Or.inl hd
          · rcases List.mem_cons.mp hx with rfl | hx'
            · exact (hl (by rw [← hlab, h])).elim
            · exact Or.inr ⟨hr, hl, x, hx', hlab⟩
      · have hb : (item_label item == "") = false := by simpa using h
        simp only [hb, Bool.false_eq_true, if_false]
        rw [setdefault_append_mem]
        constructor
        · rintro ((hd | ⟨hlL, hr⟩) | ⟨hr, hl, x, hx, hlab⟩)
          · exact Or.inl hd
          · exact Or.inr ⟨hr, by rw [hlL]; exact h, item, List.mem_cons_self _ _, hlL.symm⟩
          · exact Or.inr ⟨hr, hl, x, List.mem_cons_of_mem _ hx, hlab⟩
        · rintro (hd | ⟨hr, hl, x, hx, hlab⟩)
          · exact Or.inl (Or.inl hd)
          · rcases List.mem_cons.mp hx with rfl | hx'
            · exact Or.inl (Or.inr ⟨hlab.symm, hr⟩)
            · exact Or.inr ⟨hr, hl, x, hx', hlab⟩

theorem categorize_row_mem (control_key : String) (d : String → List Row) (x r : Row)
    (l : String) :
    r ∈ categorize_row control_key d x l
      ↔ r ∈ d l ∨ (r = x ∧ (x.get control_key).truthy ∧ l ≠ "" ∧
          ∃ item ∈ items_of (x.get control_key), item_label item = l) := by
  unfold categorize_row
  by_cases ht : (x.get control_key).truthy
  · simp only [ht, if_true]
    rw [categorize_items_mem x (items_of (x.get control_key)) d l r]
    constructor
    · rintro (hd | ⟨hr, hl, hex⟩)
      · exact Or.inl hd
      · exact Or.inr ⟨hr, trivial, hl, hex⟩
    · rintro (hd | ⟨hr, _, hl, hex⟩)
      · exact Or.inl hd
      · exact Or.inr ⟨hr, hl, hex⟩
  · have ht' : (x.get control_key).truthy = false := by simpa using ht
    simp [ht']

theorem categorized_fold_mem (control_key : String) :
    ∀ (rows : List Row) (d : String → List Row) (l : String) (r : Row),
      r ∈ (rows.foldl (categorize_row control_key) d) l
      ↔ r ∈ d l ∨ (r ∈ rows ∧ (r.get control_key).truthy ∧ l ≠ "" ∧
          ∃ item ∈ items_of (r.get control_key), item_label item = l)
  | [], d, l, r => by simp
  | x :: rows, d, l, r => by
      simp only [List.foldl_cons]
      rw [categorized_fold_mem control_key rows]
      rw [categorize_row_mem]
      constructor
      · rintro ((hd | ⟨rfl, ht, hl, hex⟩) | ⟨hmem, ht, hl, hex⟩)
        · exact Or.inl hd
        · exact Or.inr ⟨List.mem_cons_self _ _, ht, hl, hex⟩
        · exact Or.inr ⟨List.mem_cons_of_mem _ hmem, ht, hl, hex⟩
      · rintro (hd | ⟨hmem, ht, hl, hex⟩)
        · exact Or.inl (Or.inl hd)
        · rcases List.mem_cons.mp hmem with rfl | hmem'
          · exact Or.inl (Or.inr ⟨rfl, ht, hl, hex⟩)
          · exact Or.inr ⟨hmem', ht, hl, hex⟩

/-- Claim C7: a row is in the group of label `l` iff `l` is non-empty, the
row is one of the filtered rows (placed there unmodified), its partition
cell is truthy, and one of the cell's items extracts to label `l` — so a row
with several values fans out into each value's group, a row with an absent
or empty partition value belongs to no group, an item whose label is empty
contributes to no group, and label extraction agrees on a structured
label+identifier pair and the bare string of the same label. -/
theorem C7_categorizer (control_key : String) (filtered_rows : List Row) :
    (∀ (l : String) (r : Row),
        r ∈ categorized control_key filtered_rows l
        ↔ r ∈ filtered_rows ∧ (r.get control_key).truthy ∧ l ≠ "" ∧
            ∃ item ∈ items_of (r.get control_key), item_label item = l)
    ∧ (∀ (label : String) (ident : Nat),
        item_label (.vopt label ident) = item_label (.vstr label)) := by
  constructor
  · intro l r
    unfold categorized
    rw [categorized_fold_mem]
    simp
  · intro label ident
    rfl

/-! ## The reconciliation plan (claims C1 and C8) -/

theorem clone_field_step_other (opt_map : List (String × List (String × Int)))
    (p_row : Row) (payload : List (String × Val)) (pt : String × String) (k : String)
    (h : pt.2 ≠ k) :
    alGet (clone_field_step opt_map p_row payload pt) k = alGet payload k := by
  unfold clone_field_step
  cases p_row.get pt.1 with
  | vnull => rfl
  | vstr s =>
      cases alGet opt_map pt.2 <;> simp [alGet_alSet_ne _ _ _ _ (fun hh => h hh.symm)]
  | vint n =>
      cases alGet opt_map pt.2 <;> simp [alGet_alSet_ne _ _ _ _ (fun hh => h hh.symm)]
  | vopt label ident =>
      cases alGet opt_map pt.2 <;> simp [alGet_alSet_ne _ _ _ _ (fun hh => h hh.symm)]
  | vlist items =>
      cases alGet opt_map pt.2 <;> simp [alGet_alSet_ne _ _ _ _ (fun hh => h hh.symm)]

theorem clone_loop_other (opt_map : List (String × List (String × Int))) (p_row : Row)
    (k : String) :
    ∀ (f_map : List (String × String)) (payload : List (String × Val)),
      (∀ q ∈ f_map, q.2 ≠ k) →
      alGet (f_map.foldl (clone_field_step opt_map p_row) payload) k = alGet payload k
  | [], payload, _ => rfl
  | pt :: f_map, payload, h => by
      simp only [List.foldl_cons]
      rw [clone_loop_other opt_map p_row k f_map _
            (fun q hq => h q (List.mem_cons_of_mem _ hq)),
          clone_field_step_other opt_map p_row payload pt k (h pt (List.mem_cons_self _ _))]

/-- The payload of a desired row always binds the tracker key to the row's
stringified source id, provided no cloned field is mapped onto the tracker
column itself. -/
theorem build_payload_tracker (tracker_key : String) (f_map : List (String × String))
    (opt_map : List (String × List (String × Int))) (p_row : Row)
    (h : ∀ q ∈ f_map, q.2 ≠ tracker_key) :
    alGet (build_payload tracker_key f_map opt_map p_row) tracker_key
      = some (.vstr (toString p_row.id)) := by
  unfold build_payload
  rw [clone_loop_other opt_map p_row tracker_key f_map _ h]
  simp [alGet]

theorem filterMap_if_length {α β : Type} (c : α → Bool) (g : α → β) :
    ∀ l : List α,
      (l.filterMap (fun a => if c a then none else some (g a))).length
        = (l.filter (fun a => !c a)).length
  | [] => rfl
  | a :: l => by
      by_cases h : c a <;>
        simp [List.filterMap_cons, List.filter_cons, h, filterMap_if_length c g l]

/-- Claim C1: for one partition, with the current rows indexed by
string-normalized tracker value, the i-th operation of the plan is exactly
the i-th desired row's upsert — an update addressed to the indexed row's id
when the desired row's string id is a key of the index, a create otherwise —
every desired row's payload binds the tracker field to that row's source id,
the plan deletes precisely the ids of indexed current rows whose key equals
no desired row's string id, and the plan's length is the number of desired
rows plus the number of such orphans.  Hypothesis: no cloned field is mapped
onto the tracker column. -/
theorem C1_reconciler_plan (tracker_key : String) (f_map : List (String × String))
    (opt_map : List (String × List (String × Int)))
    (target_rows : List Row) (sec_rows : List Row)
    (h : ∀ q ∈ f_map, q.2 ≠ tracker_key) :
    (∀ (i : Nat) (hi : i < target_rows.length),
      ∃ hio : i < (sync_partition tracker_key f_map opt_map target_rows sec_rows).length,
        (∀ sec : Row,
          alGet (sec_by_origin tracker_key sec_rows) (toString (target_rows.get ⟨i, hi⟩).id)
            = some sec →
          (sync_partition tracker_key f_map opt_map target_rows sec_rows).get ⟨i, hio⟩
            = .update sec.id (build_payload tracker_key f_map opt_map (target_rows.get ⟨i, hi⟩)))
        ∧ (alGet (sec_by_origin tracker_key sec_rows) (toString (target_rows.get ⟨i, hi⟩).id)
            = none →
          (sync_partition tracker_key f_map opt_map target_rows sec_rows).get ⟨i, hio⟩
            = .create (build_payload tracker_key f_map opt_map (target_rows.get ⟨i, hi⟩))))
    ∧ (∀ p ∈ target_rows,
        alGet (build_payload tracker_key f_map opt_map p) tracker_key
          = some (.vstr (toString p.id)))
    ∧ (∀ kr ∈ sec_by_origin tracker_key sec_rows,
        (desired_ids target_rows).contains kr.1 = false →
        Op.delete kr.2.id ∈ sync_partition tracker_key f_map opt_map target_rows sec_rows)
    ∧ (∀ rid : Nat,
        Op.delete rid ∈ sync_partition tracker_key f_map opt_map target_rows sec_rows →
        ∃ kr ∈ sec_by_origin tracker_key sec_rows,
          rid = kr.2.id ∧ (desired_ids target_rows).contains kr.1 = false)
    ∧ (sync_partition tracker_key f_map opt_map target_rows sec_rows).length
        = target_rows.length
          + ((sec_by_origin tracker_key sec_rows).filter
              (fun kr => !(desired_ids target_rows).contains kr.1)).length := by
  rw [sync_partition_eq]
  refine ⟨?_, fun p _ => build_payload_tracker tracker_key f_map opt_map p h, ?_, ?_, ?_⟩
  · intro i hi
    have hlen : i < (target_rows.map
        (upsert_op tracker_key f_map opt_map (sec_by_origin tracker_key sec_rows))).length := by
      simpa using hi
    have hio : i < ((target_rows.map
        (upsert_op tracker_key f_map opt_map (sec_by_origin tracker_key sec_rows)))
          ++ (sec_by_origin tracker_key sec_rows).filterMap (fun kr : String × Row =>
               if (desired_ids target_rows).contains kr.1 then none
               else some (Op.delete kr.2.id))).length := by
      rw [List.length_append]
      exact Nat.lt_of_lt_of_le hlen (Nat.le_add_right _ _)
    have hget : ((target_rows.map
        (upsert_op tracker_key f_map opt_map (sec_by_origin tracker_key sec_rows)))
          ++ (sec_by_origin tracker_key sec_rows).filterMap (fun kr : String × Row =>
               if (desired_ids target_rows).contains kr.1 then none
               else some (Op.delete kr.2.id))).get ⟨i, hio⟩
        = upsert_op tracker_key f_map opt_map (sec_by_origin tracker_key sec_rows)
            (target_rows.get ⟨i, hi⟩) := by
      rw [List.get_eq_getElem, List.getElem_append_left hlen, List.getElem_map]
      rfl
    refine ⟨hio, ?_, ?_⟩
    · intro sec hsec
      rw [hget]
      unfold upsert_op
      rw [hsec]
    · intro hnone
      rw [hget]
      unfold upsert_op
      rw [hnone]
  · intro kr hkr hc
    refine List.mem_append.mpr (Or.inr (List.mem_filterMap.mpr ⟨kr, hkr, ?_⟩))
    rw [hc]
    simp
  · intro rid hmem
    rcases List.mem_append.mp hmem with hl | hr
    · rcases List.mem_map.mp hl with ⟨p, _, hp⟩
      unfold upsert_op at hp
      rcases halg : alGet (sec_by_origin tracker_key sec_rows) (toString p.id) with _ | sec <;>
        rw [halg] at hp <;> cases hp
    · rcases List.mem_filterMap.mp hr with ⟨kr, hkr, hif⟩
      by_cases hc : (desired_ids target_rows).contains kr.1
      · rw [hc] at hif
        simp at hif
      · have hc' : (desired_ids target_rows).contains kr.1 = false := by simpa using hc
        rw [hc'] at hif
        simp only [Bool.false_eq_true, if_false, Option.some.injEq] at hif
        refine ⟨kr, hkr, ?_, hc'⟩
        cases hif
        rfl
  · rw [List.length_append, List.length_map, filterMap_if_length]

/-- Claim C1, witness: a concrete partition with one desired row and no
current rows; the payload binds the tracker field to the row's id. -/
theorem C1_witness :
    alGet (build_payload "tr" [("f1", "f2")] [] ⟨1, []⟩) "tr" = some (.vstr "1") :=
  (C1_reconciler_plan "tr" [("f1", "f2")] [] [⟨1, []⟩] [] (by simp)).2.1
    ⟨1, []⟩ (List.mem_cons_self _ _)

theorem append_false_true_lt {α : Type} (p : α → Bool) (A B : List α)
    (hA : ∀ a ∈ A, p a = false) (hB : ∀ b ∈ B, p b = true)
    (i j : Nat) (hi : i < (A ++ B).length) (hj : j < (A ++ B).length)
    (hpi : p ((A ++ B).get ⟨i, hi⟩) = true) (hpj : p ((A ++ B).get ⟨j, hj⟩) = false) :
    j < i := by
  have hjlt : j < A.length := by
    by_contra hge
    have hge' := Nat.le_of_not_lt hge
    have hmem : (A ++ B).get ⟨j, hj⟩ ∈ B := by
      rw [List.get_eq_getElem, List.getElem_append_right hge']
      exact List.getElem_mem _
    rw [hB _ hmem] at hpj
    cases hpj
  by_contra hcon
  have hilt : i < A.length := Nat.lt_of_le_of_lt (Nat.le_of_not_lt hcon) hjlt
  have hmem : (A ++ B).get ⟨i, hi⟩ ∈ A := by
    rw [List.get_eq_getElem, List.getElem_append_left hilt]
    exact List.getElem_mem _
  rw [hA _ hmem] at hpi
  cases hpi

/-- Claim C8: within one partition's plan, every create and update comes
before every delete — no delete is issued while an upsert of the same
partition is still pending. -/
theorem C8_upserts_before_deletes (tracker_key : String) (f_map : List (String × String))
    (opt_map : List (String × List (String × Int)))
    (target_rows : List Row) (sec_rows : List Row)
    (i j : Nat)
    (hi : i < (sync_partition tracker_key f_map opt_map target_rows sec_rows).length)
    (hj : j < (sync_partition tracker_key f_map opt_map target_rows sec_rows).length)
    (hdel : ((sync_partition tracker_key f_map opt_map target_rows sec_rows).get ⟨i, hi⟩).isDelete
      = true)
    (hnot : ((sync_partition tracker_key f_map opt_map target_rows sec_rows).get ⟨j, hj⟩).isDelete
      = false) :
    j < i := by
  have hups : ∀ op ∈ target_rows.map
      (upsert_op tracker_key f_map opt_map (sec_by_origin tracker_key sec_rows)),
      op.isDelete = false := by
    intro op hop
    rcases List.mem_map.mp hop with ⟨p, _, hp⟩
    subst hp
    unfold upsert_op
    cases alGet (sec_by_origin tracker_key sec_rows) (toString p.id) <;> rfl
  have hdels : ∀ op ∈ (sec_by_origin tracker_key sec_rows).filterMap
      (fun kr : String × Row =>
        if (desired_ids target_rows).contains kr.1 then none
        else some (Op.delete kr.2.id)), op.isDelete = true := by
    intro op hop
    rcases List.mem_filterMap.mp hop with ⟨kr, _, hif⟩
    by_cases hc : (desired_ids target_rows).contains kr.1
    · rw [hc] at hif
      simp at hif
    · have hc' : (desired_ids target_rows).contains kr.1 = false := by simpa using hc
      rw [hc'] at hif
      simp only [Bool.false_eq_true, if_false, Option.some.injEq] at hif
      cases hif
      rfl
  revert hi hj
  rw [sync_partition_eq]
  intro hi hj hdel hnot
  exact append_false_true_lt Op.isDelete _ _ hups hdels i j hi hj hdel hnot

/-- Claim C8, witness: a concrete plan with one create (index 0) and one
delete (index 1): the create's index is smaller. -/
theorem C8_witness : (0 : Nat) < 1 :=
  C8_upserts_before_deletes "tr" [] [] [⟨1, []⟩] [⟨100, [("tr", .vstr "9")]⟩] 1 0
    (by decide) (by decide) (by decide) (by decide)

/-! ## Missing tracker column (claim C9) -/

theorem target_name_map_fold_none (name : String) :
    ∀ (fields : List Field) (acc : List (String × Field)),
      (∀ f ∈ fields, f.name ≠ name) → alGet acc name = none →
      alGet (fields.foldl (fun m f => alSet m f.name f) acc) name = none
  | [], _, _, hacc => hacc
  | f :: fields, acc, h, hacc => by
      simp only [List.foldl_cons]
      refine target_name_map_fold_none name fields _ (fun g hg => h g (List.mem_cons_of_mem _ hg)) ?_
      rw [alGet_alSet_ne _ _ _ _ (h f (List.mem_cons_self _ _)).symm]
      exact hacc

theorem target_name_map_none (target_fields : List Field) (name : String)
    (h : ∀ f ∈ target_fields, f.name ≠ name) :
    alGet (target_name_map target_fields) name = none :=
  target_name_map_fold_none name target_fields [] h rfl

/-- Claim C9: when no field of a partition's target table carries the
configured tracker column name, the Schema Mapper's tracker result is `none`,
the partition is skipped without issuing any operation, and the cycle's plan
is exactly the plan of the remaining partitions. -/
theorem C9_missing_tracker_skips_partition (primary_id_column_name : String)
    (fields_to_clone : List Field) (p : PartitionData)
    (pre post : List PartitionData)
    (h : ∀ f ∈ p.target_fields, f.name ≠ primary_id_column_name) :
    (get_field_and_option_map primary_id_column_name p.target_fields fields_to_clone).2.2 = none
    ∧ process_partition primary_id_column_name fields_to_clone p = []
    ∧ run_cycle primary_id_column_name fields_to_clone (pre ++ p :: post)
        = run_cycle primary_id_column_name fields_to_clone (pre ++ post) := by
  have htr : (get_field_and_option_map primary_id_column_name p.target_fields
      fields_to_clone).2.2 = none := by
    unfold get_field_and_option_map
    dsimp only
    rw [target_name_map_none p.target_fields primary_id_column_name h]
    rfl
  have hproc : process_partition primary_id_column_name fields_to_clone p = [] := by
    unfold process_partition
    dsimp only
    rw [htr]
  refine ⟨htr, hproc, ?_⟩
  unfold run_cycle
  simp [hproc]

/-- Claim C9, witness: a concrete partition whose only target field is named
`name`, with tracker column `origin`: the partition contributes nothing. -/
theorem C9_witness :
    process_partition "origin" [] ⟨[⟨7, "name", none⟩], [⟨1, []⟩], []⟩ = [] :=
  (C9_missing_tracker_skips_partition "origin" [] ⟨[⟨7, "name", none⟩], [⟨1, []⟩], []⟩ [] []
    (by intro f hf; rcases List.mem_singleton.mp hf with rfl; decide)).2.1

/-! ## Rows outside the index (claim C10) -/

theorem alSet_mem {α : Type} {q : String × α} :
    ∀ {l : List (String × α)} {k : String} {v : α},
      q ∈ alSet l k v → q = (k, v) ∨ q ∈ l := by
  intro l
  induction l with
  | nil =>
      intro k v hq
      simp only [alSet] at hq
      exact Or.inl (List.mem_singleton.mp hq)
  | cons p l ih =>
      intro k v hq
      simp only [alSet] at hq
      by_cases hp : p.1 = k
      · have hb : (p.1 == k) = true := by simpa using hp
        rw [hb] at hq
        simp only [if_true] at hq
        rcases List.mem_cons.mp hq with h1 | h2
        · exact Or.inl h1
        · exact Or.inr (List.mem_cons_of_mem _ h2)
      · have hb : (p.1 == k) = false := by simpa using hp
        rw [hb] at hq
        simp only [Bool.false_eq_true, if_false] at hq
        rcases List.mem_cons.mp hq with h1 | h2
        · exact Or.inr (h1 ▸ List.mem_cons_self _ _)
        · rcases ih h2 with h3 | h4
          · exact Or.inl h3
          · exact Or.inr (List.mem_cons_of_mem _ h4)

theorem sec_by_origin_fold_mem (tracker_key : String) (q : String × Row) :
    ∀ (rows : List Row) (acc : List (String × Row)),
      q ∈ rows.foldl
        (fun acc r =>
          if (r.get tracker_key).truthy then alSet acc (pyStr (r.get tracker_key)) r else acc)
        acc →
      q ∈ acc ∨ (q.2 ∈ rows ∧ (q.2.get tracker_key).truthy = true
        ∧ q.1 = pyStr (q.2.get tracker_key))
  | [], _, hq => Or.inl hq
  | r :: rows, acc, hq => by
      simp only [List.foldl_cons] at hq
      rcases sec_by_origin_fold_mem tracker_key q rows _ hq with hacc | ⟨hr, ht, hk⟩
      · by_cases htr : (r.get tracker_key).truthy
        · rw [if_pos htr] at hacc
          rcases alSet_mem hacc with h1 | h2
          · subst h1
            exact Or.inr ⟨List.mem_cons_self _ _, htr, rfl⟩
          · exact Or.inl h2
        · rw [if_neg htr] at hacc
          exact Or.inl hacc
      · exact Or.inr ⟨List.mem_cons_of_mem _ hr, ht, hk⟩

/-- Every entry of the index is a current row with a truthy tracker, keyed by
its string-normalized tracker value. -/
theorem sec_by_origin_mem (tracker_key : String) (sec_rows : List Row)
    (q : String × Row) (hq : q ∈ sec_by_origin tracker_key sec_rows) :
    q.2 ∈ sec_rows ∧ (q.2.get tracker_key).truthy = true
      ∧ q.1 = pyStr (q.2.get tracker_key) := by
  rcases sec_by_origin_fold_mem tracker_key q sec_rows [] hq with hacc | h
  · cases hacc
  · exact h

/-- Every update of a plan is addressed to the id of an indexed row. -/
theorem plan_update_target (tracker_key : String) (f_map : List (String × String))
    (opt_map : List (String × List (String × Int)))
    (target_rows sec_rows : List Row) (rid : Nat) (payload : List (String × Val))
    (hmem : Op.update rid payload ∈ sync_partition tracker_key f_map opt_map target_rows sec_rows) :
    ∃ kr ∈ sec_by_origin tracker_key sec_rows, rid = kr.2.id := by
  rw [sync_partition_eq] at hmem
  rcases List.mem_append.mp hmem with hl | hr
  · rcases List.mem_map.mp hl with ⟨p, _, hp⟩
    unfold upsert_op at hp
    rcases halg : alGet (sec_by_origin tracker_key sec_rows) (toString p.id) with _ | sec <;>
      rw [halg] at hp
    · cases hp
    · cases hp
      exact ⟨(toString p.id, sec), alGet_mem halg, rfl⟩
  · rcases List.mem_filterMap.mp hr with ⟨kr, _, hif⟩
    by_cases hc : (desired_ids target_rows).contains kr.1 <;>
      simp [hc] at hif

/-- Every delete of a plan is addressed to the id of an indexed row. -/
theorem plan_delete_target (tracker_key : String) (f_map : List (String × String))
    (opt_map : List (String × List (String × Int)))
    (target_rows sec_rows : List Row) (rid : Nat)
    (hmem : Op.delete rid ∈ sync_partition tracker_key f_map opt_map target_rows sec_rows) :
    ∃ kr ∈ sec_by_origin tracker_key sec_rows, rid = kr.2.id := by
  rw [sync_partition_eq] at hmem
  rcases List.mem_append.mp hmem with hl | hr
  · rcases List.mem_map.mp hl with ⟨p, _, hp⟩
    unfold upsert_op at hp
    rcases halg : alGet (sec_by_origin tracker_key sec_rows) (toString p.id) with _ | sec <;>
      rw [halg] at hp <;> cases hp
  · rcases List.mem_filterMap.mp hr with ⟨kr, hkr, hif⟩
    by_cases hc : (desired_ids target_rows).contains kr.1
    · rw [hc] at hif
      simp at hif
    · have hc' : (desired_ids target_rows).contains kr.1 = false := by simpa using hc
      rw [hc'] at hif
      simp only [Bool.false_eq_true, if_false, Option.some.injEq] at hif
      cases hif
      exact ⟨kr, hkr, rfl⟩

/-- A row no operation of a plan addresses survives the plan's application. -/
theorem apply_ops_preserves (r : Row) :
    ∀ (ops : List Op) (st : Nat × List Row),
      r ∈ st.2 →
      (∀ payload, Op.update r.id payload ∉ ops) →
      Op.delete r.id ∉ ops →
      r ∈ (apply_ops st ops).2
  | [], _, hmem, _, _ => hmem
  | op :: ops, st, hmem, hupd, hdel => by
      have hupd' : ∀ payload, Op.update r.id payload ∉ ops :=
        fun payload hp => hupd payload (List.mem_cons_of_mem _ hp)
      have hdel' : Op.delete r.id ∉ ops :=
        fun hp => hdel (List.mem_cons_of_mem _ hp)
      unfold apply_ops
      rw [List.foldl_cons]
      refine apply_ops_preserves r ops (apply_op st op) ?_ hupd' hdel'
      cases op with
      | create payload =>
          exact List.mem_append.mpr (Or.inl hmem)
      | update rid payload =>
          have hne : r.id ≠ rid := by
            intro hcon
            exact hupd payload (by rw [← hcon]; exact List.mem_cons_self _ _)
          have hbe : (r.id == rid) = false := by simpa using hne
          refine List.mem_map.mpr ⟨r, hmem, ?_⟩
          rw [hbe]
          simp
      | delete rid =>
          have hne : r.id ≠ rid := by
            intro hcon
            exact hdel (by rw [← hcon]; exact List.mem_cons_self _ _)
          have hbe : (r.id == rid) = false := by simpa using hne
          refine List.mem_filter.mpr ⟨hmem, ?_⟩
          rw [hbe]
          rfl

/-- Claim C10: a current target row whose tracker cell is absent or empty is
never placed in the index, no update and no delete of the cycle's plan is
addressed to it, and it survives the application of the whole plan unchanged
(row ids being unique in the target table). -/
theorem C10_untracked_row_untouched (tracker_key : String) (f_map : List (String × String))
    (opt_map : List (String × List (String × Int)))
    (target_rows sec_rows : List Row) (r : Row) (n : Nat)
    (hmem : r ∈ sec_rows)
    (habs : r.get tracker_key = .vnull ∨ r.get tracker_key = .vstr "")
    (hid : ∀ r2 ∈ sec_rows, r2.id = r.id → r2 = r) :
    (∀ k : String, alGet (sec_by_origin tracker_key sec_rows) k ≠ some r)
    ∧ (∀ payload, Op.update r.id payload
        ∉ sync_partition tracker_key f_map opt_map target_rows sec_rows)
    ∧ Op.delete r.id ∉ sync_partition tracker_key f_map opt_map target_rows sec_rows
    ∧ r ∈ (apply_ops (n, sec_rows)
        (sync_partition tracker_key f_map opt_map target_rows sec_rows)).2 := by
  have hfalse : (r.get tracker_key).truthy = false := by
    rcases habs with h1 | h1 <;> rw [h1] <;> rfl
  have hnotidx : ∀ q ∈ sec_by_origin tracker_key sec_rows, q.2.id ≠ r.id := by
    intro q hq hcon
    have hprop := sec_by_origin_mem tracker_key sec_rows q hq
    have : q.2 = r := hid q.2 hprop.1 hcon
    rw [this, hfalse] at hprop
    cases hprop.2.1
  have hupd : ∀ payload, Op.update r.id payload
      ∉ sync_partition tracker_key f_map opt_map target_rows sec_rows := by
    intro payload hcon
    rcases plan_update_target tracker_key f_map opt_map target_rows sec_rows r.id payload hcon
      with ⟨kr, hkr, heq⟩
    exact hnotidx kr hkr heq.symm
  have hdel : Op.delete r.id
      ∉ sync_partition tracker_key f_map opt_map target_rows sec_rows := by
    intro hcon
    rcases plan_delete_target tracker_key f_map opt_map target_rows sec_rows r.id hcon
      with ⟨kr, hkr, heq⟩
    exact hnotidx kr hkr heq.symm
  refine ⟨?_, hupd, hdel, ?_⟩
  · intro k hcon
    have hprop := sec_by_origin_mem tracker_key sec_rows (k, r) (alGet_mem hcon)
    rw [hfalse] at hprop
    cases hprop.2.1
  · exact apply_ops_preserves r _ (n, sec_rows) hmem hupd hdel

/-- Claim C10, witness: a concrete current row with no tracker cell survives
a cycle that creates one desired row. -/
theorem C10_witness :
    (⟨100, []⟩ : Row) ∈ (apply_ops (1000, [⟨100, []⟩])
      (sync_partition "tr" [] [] [⟨1, []⟩] [⟨100, []⟩])).2 :=
  (C10_untracked_row_untouched "tr" [] [] [⟨1, []⟩] [⟨100, []⟩] ⟨100, []⟩ 1000
    (List.mem_singleton.mpr rfl) (Or.inl rfl)
    (fun _ h2 _ => List.mem_singleton.mp h2)).2.2.2

/-! ## Option translation during payload construction (claim C4) -/

theorem option_list_items_eq (m : List (String × Int)) :
    ∀ items : List Val,
      items.filterMap (fun i =>
        match i with
        | .vopt label _ => (alGet m label).map Val.vint
        | .vstr s => (alGet m s).map Val.vint
        | _ => none)
      = (items.filterMap (fun i => (option_key i).bind (alGet m))).map Val.vint
  | [] => rfl
  | i :: items => by
      simp only [List.filterMap_cons]
      cases i with
      | vopt label ident =>
          rcases halg : alGet m label with _ | oid <;>
            simp [option_key, halg, option_list_items_eq m items]
      | vstr s =>
          rcases halg : alGet m s with _ | oid <;>
            simp [option_key, halg, option_list_items_eq m items]
      | vnull => simp [option_key, option_list_items_eq m items]
      | vint n => simp [option_key, option_list_items_eq m items]
      | vlist l => simp [option_key, option_list_items_eq m items]

/-- The element-wise translation, written declaratively: the mapped option
ids of exactly those elements whose lookup key has an entry, in order. -/
theorem option_list_value_eq (m : List (String × Int)) (items : List Val) :
    option_list_value m items
      = .vlist ((items.filterMap (fun i => (option_key i).bind (alGet m))).map Val.vint) := by
  unfold option_list_value
  exact congrArg Val.vlist (option_list_items_eq m items)

theorem clone_field_step_vnull (opt_map : List (String × List (String × Int)))
    (p_row : Row) (payload : List (String × Val)) (pt : String × String)
    (hval : p_row.get pt.1 = .vnull) :
    clone_field_step opt_map p_row payload pt = payload := by
  unfold clone_field_step
  rw [hval]

theorem clone_field_step_list (opt_map : List (String × List (String × Int)))
    (p_row : Row) (payload : List (String × Val)) (pt : String × String)
    (m : List (String × Int)) (items : List Val)
    (hm : alGet opt_map pt.2 = some m) (hval : p_row.get pt.1 = .vlist items) :
    clone_field_step opt_map p_row payload pt
      = alSet payload pt.2 (option_list_value m items) := by
  unfold clone_field_step
  rw [hval, hm]

theorem clone_field_step_single (opt_map : List (String × List (String × Int)))
    (p_row : Row) (payload : List (String × Val)) (pt : String × String)
    (m : List (String × Int)) (label : String) (ident : Nat)
    (hm : alGet opt_map pt.2 = some m) (hval : p_row.get pt.1 = .vopt label ident) :
    clone_field_step opt_map p_row payload pt
      = alSet payload pt.2
          (match alGet m label with
           | some oid => .vint oid
           | none => .vnull) := by
  unfold clone_field_step
  rw [hval, hm]

theorem clone_field_step_nomap (opt_map : List (String × List (String × Int)))
    (p_row : Row) (payload : List (String × Val)) (pt : String × String)
    (hm : alGet opt_map pt.2 = none) (hval : p_row.get pt.1 ≠ .vnull) :
    clone_field_step opt_map p_row payload pt
      = alSet payload pt.2 (p_row.get pt.1) := by
  unfold clone_field_step
  cases hv : p_row.get pt.1 with
  | vnull => exact absurd hv hval
  | vstr s => rw [hm]
  | vint n => rw [hm]
  | vopt label ident => rw [hm]
  | vlist items => rw [hm]

/-- Claim C4, counterexample to the claim as stated: a single-select value
whose label `Green` is absent from the target's option mapping must, per the
claim, leave the field out of the payload entirely; the code instead binds
the field to Python `None` (an explicit null). -/
theorem C4_counterexample :
    alGet (build_payload "tr" [("f1", "f9")] [("f9", [("Red", 7), ("Blue", 9)])]
      ⟨5, [("f1", .vopt "Green" 2)]⟩) "f9" = some .vnull := rfl

/-- Claim C4 (amended): for a mapped field pair whose target key `tk` is not
the tracker key and is hit by no other mapped pair: an absent source cell
leaves `tk` out of the payload; when `tk` has an option mapping, a
list-valued cell is translated element-wise (each element's label mapped to
its target option id, unmapped elements silently dropped), a structured
label+identifier cell is translated to the mapped option id when its label
is mapped and is otherwise bound to an explicit null — never a raw string
and never an error; when `tk` has no option mapping the cell value passes
through unchanged. -/
theorem C4_option_translation (tracker_key pk tk : String)
    (pre post : List (String × String))
    (opt_map : List (String × List (String × Int))) (p_row : Row)
    (htr : tk ≠ tracker_key)
    (hothers : ∀ q ∈ pre ++ post, q.2 ≠ tk) :
    (p_row.get pk = .vnull →
      alGet (build_payload tracker_key (pre ++ (pk, tk) :: post) opt_map p_row) tk = none)
    ∧ (∀ m : List (String × Int), alGet opt_map tk = some m →
        (∀ items, p_row.get pk = .vlist items →
          alGet (build_payload tracker_key (pre ++ (pk, tk) :: post) opt_map p_row) tk
            = some (.vlist ((items.filterMap
                (fun i => (option_key i).bind (alGet m))).map Val.vint)))
        ∧ (∀ label ident oid, p_row.get pk = .vopt label ident → alGet m label = some oid →
            alGet (build_payload tracker_key (pre ++ (pk, tk) :: post) opt_map p_row) tk
              = some (.vint oid))
        ∧ (∀ label ident, p_row.get pk = .vopt label ident → alGet m label = none →
            alGet (build_payload tracker_key (pre ++ (pk, tk) :: post) opt_map p_row) tk
              = some .vnull))
    ∧ (alGet opt_map tk = none → p_row.get pk ≠ .vnull →
        alGet (build_payload tracker_key (pre ++ (pk, tk) :: post) opt_map p_row) tk
          = some (p_row.get pk)) := by
  have hpre : ∀ q ∈ pre, q.2 ≠ tk :=
    fun q hq => hothers q (List.mem_append.mpr (Or.inl hq))
  have hpost : ∀ q ∈ post, q.2 ≠ tk :=
    fun q hq => hothers q (List.mem_append.mpr (Or.inr hq))
  have hmain : ∀ st : List (String × Val),
      alGet (build_payload tracker_key (pre ++ (pk, tk) :: post) opt_map p_row) tk
        = alGet (clone_field_step opt_map p_row
            (pre.foldl (clone_field_step opt_map p_row)
              [(tracker_key, .vstr (toString p_row.id))]) (pk, tk)) tk := by
    intro _
    unfold build_payload
    rw [List.foldl_append, List.foldl_cons]
    exact clone_loop_other opt_map p_row tk post _ hpost
  have hinit : alGet (pre.foldl (clone_field_step opt_map p_row)
      [(tracker_key, .vstr (toString p_row.id))]) tk = none := by
    rw [clone_loop_other opt_map p_row tk pre _ hpre]
    have hne : ¬tracker_key = tk := fun hh => htr hh.symm
    simp [alGet, hne]
  refine ⟨?_, ?_, ?_⟩
  · intro hval
    rw [hmain [], clone_field_step_vnull opt_map p_row _ (pk, tk) hval]
    exact hinit
  · intro m hm
    refine ⟨?_, ?_, ?_⟩
    · intro items hval
      rw [hmain [], clone_field_step_list opt_map p_row _ (pk, tk) m items hm hval,
        alGet_alSet_self, option_list_value_eq]
    · intro label ident oid hval hlab
      rw [hmain [], clone_field_step_single opt_map p_row _ (pk, tk) m label ident hm hval,
        alGet_alSet_self, hlab]
    · intro label ident hval hlab
      rw [hmain [], clone_field_step_single opt_map p_row _ (pk, tk) m label ident hm hval,
        alGet_alSet_self, hlab]
  · intro hm hval
    rw [hmain [], clone_field_step_nomap opt_map p_row _ (pk, tk) hm hval,
      alGet_alSet_self]

/-- Claim C4, witness: a mapped label translates to its target option id. -/
theorem C4_witness :
    alGet (build_payload "tr" [("f1", "f9")] [("f9", [("Red", 7)])]
      ⟨5, [("f1", .vopt "Red" 1)]⟩) "f9" = some (.vint 7) :=
  ((C4_option_translation "tr" "f1" "f9" [] [] [("f9", [("Red", 7)])]
      ⟨5, [("f1", .vopt "Red" 1)]⟩ (by decide) (by simp)).2.1
    [("Red", 7)] rfl).2.1 "Red" 1 7 rfl rfl

/-! ## Failure of one operation (claim C5) -/

/-- Claim C5, counterexample to the claim as stated: a partition plan with
two desired rows whose first operation fails; the claim requires the second
row still to be processed, but only one of the two operations is attempted —
the exception aborts the rest of the partition. -/
theorem C5_counterexample :
    (attempted Op.isUpdate
      (sync_partition "tr" [] [] [⟨1, []⟩, ⟨2, []⟩] [⟨100, [("tr", .vstr "1")]⟩])).length = 1
    ∧ (sync_partition "tr" [] [] [⟨1, []⟩, ⟨2, []⟩] [⟨100, [("tr", .vstr "1")]⟩]).length = 2 :=
  ⟨rfl, rfl⟩

/-- Claim C5 (amended): an individual create/update/delete failure is logged
and raises an uncaught exception: the operations after the first failing one
— the remaining rows of the partition and everything after them in the cycle
— are never attempted. -/
theorem C5_failure_aborts_cycle (fails : Op → Bool) :
    ∀ (pre : List Op) (op : Op) (post : List Op),
      (∀ o ∈ pre, fails o = false) → fails op = true →
      attempted fails (pre ++ op :: post) = pre ++ [op]
  | [], op, post, _, hop => by
      simp only [List.nil_append]
      unfold attempted
      rw [hop]
      simp
  | o :: pre, op, post, hpre, hop => by
      simp only [List.cons_append]
      unfold attempted
      rw [hpre o (List.mem_cons_self _ _)]
      simp only [Bool.false_eq_true, if_false, List.cons.injEq, true_and]
      exact C5_failure_aborts_cycle fails pre op post
        (fun q hq => hpre q (List.mem_cons_of_mem _ hq)) hop

/-- Claim C5, witness: with a failing first operation, the attempted list
stops at that operation. -/
theorem C5_witness :
    attempted Op.isUpdate
      [Op.update 100 [("tr", .vstr "1")], Op.create [("tr", .vstr "2")]]
      = [Op.update 100 [("tr", .vstr "1")]] :=
  C5_failure_aborts_cycle Op.isUpdate [] (Op.update 100 [("tr", .vstr "1")])
    [Op.create [("tr", .vstr "2")]] (by simp) rfl

/-! ## The second reconciliation run (claim C2)

The claim's second run: apply one partition's whole plan to the target
table's state, then reconcile the same desired rows against the resulting
state.  The code issues an unconditional PATCH for every matched desired row
(line 196), so the second run is not empty — it issues one update per
desired row (and, under the spec's own tracker-uniqueness invariant for the
stored table, nothing else).

`upd_one`, `upd_all` and `created_rows` describe the effect of the upsert
phase on the table: each update rewrites the one row whose id the indexed
entry names, and each create appends a fresh-id row holding the payload. -/

def upd_one (idx : List (String × Row)) (pay : Row → List (String × Val))
    (d : Row) (r : Row) : Row :=
  match alGet idx (toString d.id) with
  | some sec => if r.id == sec.id then ⟨r.id, payload_merge r.cells (pay d)⟩ else r
  | none => r

def upd_all (idx : List (String × Row)) (pay : Row → List (String × Val))
    (ds : List Row) (r : Row) : Row :=
  ds.foldl (fun r d => upd_one idx pay d r) r

def created_rows (idx : List (String × Row)) (pay : Row → List (String × Val)) :
    List Row → Nat → List Row
  | [], _ => []
  | d :: ds, n =>
    if (alGet idx (toString d.id)).isSome
    then created_rows idx pay ds n
    else ⟨n, pay d⟩ :: created_rows idx pay ds (n + 1)

theorem toDigitsCore_len_ge (b : Nat) :
    ∀ (f n : Nat) (acc : List Char), acc.length ≤ (Nat.toDigitsCore b f n acc).length
  | 0, _, _ => Nat.le_refl _
  | f + 1, n, acc => by
      unfold Nat.toDigitsCore
      by_cases h : n / b = 0
      · simp [h]
      · simp only [h, if_false]
        calc acc.length ≤ (Nat.digitChar (n % b) :: acc).length := by simp
          _ ≤ _ := toDigitsCore_len_ge b f (n / b) (Nat.digitChar (n % b) :: acc)

/-- A stringified row id is never the empty string, so a written tracker
cell is always truthy. -/
theorem nat_repr_ne_empty (n : Nat) : toString n ≠ "" := by
  show Nat.repr n ≠ ""
  unfold Nat.repr
  intro hcon
  have hlen : (Nat.toDigits 10 n).length = 0 := by
    have := congrArg String.length hcon
    simpa [List.asString] using this
  unfold Nat.toDigits at hlen
  unfold Nat.toDigitsCore at hlen
  by_cases h : n / 10 = 0
  · simp [h] at hlen
  · simp only [h, if_false] at hlen
    have h1 := toDigitsCore_len_ge 10 n (n / 10) [Nat.digitChar (n % 10)]
    rw [hlen] at h1
    simp at h1

theorem filterMap_if_eq_map {α β : Type} (c : α → Bool) (g : α → β) :
    ∀ l : List α,
      l.filterMap (fun a => if c a then none else some (g a))
        = (l.filter (fun a => !c a)).map g
  | [] => rfl
  | a :: l => by
      by_cases h : c a <;>
        simp [List.filterMap_cons, List.filter_cons, h, filterMap_if_eq_map c g l]

/-- Applying a list of deletes filters out exactly the rows whose ids are
named. -/
theorem apply_delete_list :
    ∀ (ids : List Nat) (st : Nat × List Row),
      apply_ops st (ids.map Op.delete) = (st.1, st.2.filter (fun r => !ids.contains r.id))
  | [], st => by simp [apply_ops]
  | i :: ids, st => by
      simp only [List.map_cons]
      unfold apply_ops
      rw [List.foldl_cons]
      have := apply_delete_list ids (apply_op st (Op.delete i))
      unfold apply_ops at this
      rw [this]
      unfold apply_op
      simp only [List.filter_filter]
      refine congrArg (fun l => (st.1, l)) (List.filter_congr ?_)
      intro r _
      simp only [List.contains_cons]
      cases hbe : r.id == i <;> cases hc : ids.contains r.id <;> simp [hbe, hc]

/-- The index lookup, characterized as the last matching current row. -/
theorem sec_by_origin_get_find (tracker_key : String) (sec_rows : List Row) (k : String) :
    alGet (sec_by_origin tracker_key sec_rows) k
      = sec_rows.reverse.find?
          (fun r => (r.get tracker_key).truthy && (pyStr (r.get tracker_key) == k)) := by
  unfold sec_by_origin
  rw [sec_by_origin_fold]
  cases List.find? (fun r => (r.get tracker_key).truthy && (pyStr (r.get tracker_key) == k))
    sec_rows.reverse <;> simp [alGet]

/-- Under the tracker-uniqueness invariant, every truthy-tracker current row
is the indexed row of its own key. -/
theorem sec_by_origin_complete (tracker_key : String) (sec_rows : List Row)
    (huniq : ∀ r ∈ sec_rows, ∀ r2 ∈ sec_rows,
      (r.get tracker_key).truthy = true → (r2.get tracker_key).truthy = true →
      pyStr (r.get tracker_key) = pyStr (r2.get tracker_key) → r = r2)
    (r : Row) (hr : r ∈ sec_rows) (ht : (r.get tracker_key).truthy = true) :
    alGet (sec_by_origin tracker_key sec_rows) (pyStr (r.get tracker_key)) = some r := by
  rw [sec_by_origin_get_find]
  have hsome : (sec_rows.reverse.find?
      (fun r2 => (r2.get tracker_key).truthy
        && (pyStr (r2.get tracker_key) == pyStr (r.get tracker_key)))).isSome := by
    refine List.find?_isSome.mpr ⟨r, List.mem_reverse.mpr hr, ?_⟩
    simp [ht]
  obtain ⟨r0, hr0⟩ := Option.isSome_iff_exists.mp hsome
  rw [hr0]
  have hp := List.find?_some hr0
  have hm := List.mem_reverse.mp (List.mem_of_find?_eq_some hr0)
  simp only [Bool.and_eq_true, beq_iff_eq] at hp
  rw [huniq r0 hm r hr hp.1 ht hp.2]

theorem alSet_mem_key {α : Type} {q : String × α} {l : List (String × α)} {k : String}
    {v : α} (hq : q ∈ alSet l k v) : q.1 = k ∨ q ∈ l := by
  rcases alSet_mem hq with h1 | h2
  · exact Or.inl (by rw [h1])
  · exact Or.inr h2

theorem clone_field_step_mem (opt_map : List (String × List (String × Int)))
    (p_row : Row) (payload : List (String × Val)) (pt : String × String)
    (q : String × Val) (hq : q ∈ clone_field_step opt_map p_row payload pt) :
    q.1 = pt.2 ∨ q ∈ payload := by
  unfold clone_field_step at hq
  cases hv : p_row.get pt.1 with
  | vnull =>
      rw [hv] at hq
      exact Or.inr hq
  | vstr s =>
      rw [hv] at hq
      cases hm : alGet opt_map pt.2 with
      | none => rw [hm] at hq; exact alSet_mem_key hq
      | some m => rw [hm] at hq; exact Or.inr hq
  | vint n =>
      rw [hv] at hq
      cases hm : alGet opt_map pt.2 with
      | none => rw [hm] at hq; exact alSet_mem_key hq
      | some m => rw [hm] at hq; exact Or.inr hq
  | vopt label ident =>
      rw [hv] at hq
      cases hm : alGet opt_map pt.2 with
      | none => rw [hm] at hq; exact alSet_mem_key hq
      | some m => rw [hm] at hq; exact alSet_mem_key hq
  | vlist items =>
      rw [hv] at hq
      cases hm : alGet opt_map pt.2 with
      | none => rw [hm] at hq; exact alSet_mem_key hq
      | some m => rw [hm] at hq; exact alSet_mem_key hq

theorem clone_loop_vals (opt_map : List (String × List (String × Int))) (p_row : Row)
    (k : String) (v : Val) :
    ∀ (f_map : List (String × String)) (payload : List (String × Val)),
      (∀ q ∈ f_map, q.2 ≠ k) →
      (∀ p ∈ payload, p.1 = k → p.2 = v) →
      ∀ p ∈ f_map.foldl (clone_field_step opt_map p_row) payload, p.1 = k → p.2 = v
  | [], _, _, hpl => hpl
  | pt :: f_map, payload, hf, hpl => by
      simp only [List.foldl_cons]
      refine clone_loop_vals opt_map p_row k v f_map _
        (fun q hq => hf q (List.mem_cons_of_mem _ hq)) ?_
      intro p hp hpk
      rcases clone_field_step_mem opt_map p_row payload pt p hp with h1 | h2
      · exact absurd (h1 ▸ hpk : pt.2 = k) (hf pt (List.mem_cons_self _ _))
      · exact hpl p h2 hpk

/-- Every binding of the tracker key in a desired row's payload carries the
row's stringified id (no cloned field is mapped onto the tracker column). -/
theorem build_payload_tracker_vals (tracker_key : String) (f_map : List (String × String))
    (opt_map : List (String × List (String × Int))) (p_row : Row)
    (htr : ∀ q ∈ f_map, q.2 ≠ tracker_key) :
    ∀ p ∈ build_payload tracker_key f_map opt_map p_row,
      p.1 = tracker_key → p.2 = .vstr (toString p_row.id) := by
  unfold build_payload
  refine clone_loop_vals opt_map p_row tracker_key _ f_map _ htr ?_
  intro p hp hpk
  rcases List.mem_singleton.mp hp with rfl
  rfl

theorem payload_merge_get_none (k : String) :
    ∀ (payload cells : List (String × Val)),
      alGet payload k = none →
      alGet (payload_merge cells payload) k = alGet cells k
  | [], _, _ => rfl
  | kv :: rest, cells, h => by
      have hne : (kv.1 == k) = false := by
        by_contra hcon
        have : (kv.1 == k) = true := by simpa using hcon
        simp [alGet, this] at h
      have hrest : alGet rest k = none := by
        simpa [alGet, hne] using h
      unfold payload_merge
      rw [List.foldl_cons]
      have := payload_merge_get_none k rest (alSet cells kv.1 kv.2) hrest
      unfold payload_merge at this
      rw [this, alGet_alSet_ne]
      intro hcon
      rw [hcon] at hne
      simp at hne

theorem payload_merge_get_all (k : String) (v : Val) :
    ∀ (payload cells : List (String × Val)),
      alGet payload k = some v →
      (∀ p ∈ payload, p.1 = k → p.2 = v) →
      alGet (payload_merge cells payload) k = some v
  | [], _, h, _ => by simp [alGet] at h
  | kv :: rest, cells, h, hvals => by
      unfold payload_merge
      rw [List.foldl_cons]
      by_cases hrest : alGet rest k = none
      · have hk : (kv.1 == k) = true := by
          by_contra hcon
          have hne : (kv.1 == k) = false := by simpa using hcon
          simp [alGet, hne, hrest] at h
        have hk' : kv.1 = k := by simpa using hk
        have hv' : kv.2 = v := hvals kv (List.mem_cons_self _ _) hk'
        have := payload_merge_get_none k rest (alSet cells kv.1 kv.2) hrest
        unfold payload_merge at this
        rw [this, hk', hv', alGet_alSet_self]
      · obtain ⟨v2, hv2⟩ := Option.ne_none_iff_exists.mp hrest
        have hv2' : alGet rest k = some v2 := hv2.symm
        have hveq : v2 = v :=
          hvals (k, v2) (List.mem_cons_of_mem _ (alGet_mem hv2')) rfl
        rw [hveq] at hv2'
        exact payload_merge_get_all k v rest (alSet cells kv.1 kv.2) hv2'
          (fun p hp => hvals p (List.mem_cons_of_mem _ hp))

/-- A created row reads its tracker cell back as the stringified source id. -/
theorem created_row_get_tracker (tracker_key : String) (f_map : List (String × String))
    (opt_map : List (String × List (String × Int))) (d : Row) (n : Nat)
    (htr : ∀ q ∈ f_map, q.2 ≠ tracker_key) :
    Row.get ⟨n, build_payload tracker_key f_map opt_map d⟩ tracker_key
      = .vstr (toString d.id) := by
  unfold Row.get
  rw [build_payload_tracker tracker_key f_map opt_map d htr]
  rfl

/-- An updated row reads its tracker cell back as the stringified source id
of the desired row whose payload was merged in. -/
theorem merged_row_get_tracker (tracker_key : String) (f_map : List (String × String))
    (opt_map : List (String × List (String × Int))) (d : Row) (rid : Nat)
    (cells : List (String × Val))
    (htr : ∀ q ∈ f_map, q.2 ≠ tracker_key) :
    Row.get ⟨rid, payload_merge cells (build_payload tracker_key f_map opt_map d)⟩ tracker_key
      = .vstr (toString d.id) := by
  unfold Row.get
  rw [payload_merge_get_all tracker_key (.vstr (toString d.id)) _ cells
    (build_payload_tracker tracker_key f_map opt_map d htr)
    (build_payload_tracker_vals tracker_key f_map opt_map d htr)]
  rfl

theorem upd_all_cons (idx : List (String × Row)) (pay : Row → List (String × Val))
    (d : Row) (ds : List Row) (r : Row) :
    upd_all idx pay (d :: ds) r = upd_all idx pay ds (upd_one idx pay d r) := rfl

theorem upd_one_id (idx : List (String × Row)) (pay : Row → List (String × Val))
    (d : Row) (r : Row) : (upd_one idx pay d r).id = r.id := by
  unfold upd_one
  cases alGet idx (toString d.id) with
  | none => rfl
  | some sec => cases hbe : r.id == sec.id <;> simp [hbe]

theorem upd_all_id (idx : List (String × Row)) (pay : Row → List (String × Val)) :
    ∀ (ds : List Row) (r : Row), (upd_all idx pay ds r).id = r.id
  | [], _ => rfl
  | d :: ds, r => by
      rw [upd_all_cons, upd_all_id idx pay ds, upd_one_id]

theorem upd_one_not_applicable (idx : List (String × Row)) (pay : Row → List (String × Val))
    (d : Row) (r : Row)
    (h : ∀ sec : Row, alGet idx (toString d.id) = some sec → sec.id ≠ r.id) :
    upd_one idx pay d r = r := by
  unfold upd_one
  cases halg : alGet idx (toString d.id) with
  | none => rfl
  | some sec =>
      have hne := h sec halg
      have hbe : (r.id == sec.id) = false := by
        simpa using fun hh => hne hh.symm
      simp [hbe]

/-- A row whose id no indexed entry carries is never touched by the upsert
phase. -/
theorem upd_all_untouched (idx : List (String × Row)) (pay : Row → List (String × Val)) :
    ∀ (ds : List Row) (r : Row),
      (∀ kr ∈ idx, kr.2.id ≠ r.id) → upd_all idx pay ds r = r
  | [], _, _ => rfl
  | d :: ds, r, h => by
      rw [upd_all_cons, upd_one_not_applicable idx pay d r
        (fun sec halg => h (toString d.id, sec) (alGet_mem halg))]
      exact upd_all_untouched idx pay ds r h

/-- After the upsert phase a row is either untouched, or holds the merged
payload of one desired row whose indexed target shares its id. -/
theorem upd_all_cases (idx : List (String × Row)) (pay : Row → List (String × Val)) :
    ∀ (ds : List Row) (r : Row),
      upd_all idx pay ds r = r
      ∨ ∃ d ∈ ds,
          (∃ sec : Row, alGet idx (toString d.id) = some sec ∧ sec.id = r.id)
          ∧ ∃ cells, upd_all idx pay ds r = ⟨r.id, payload_merge cells (pay d)⟩
  | [], r => Or.inl rfl
  | d :: ds, r => by
      rw [upd_all_cons]
      by_cases happ : ∃ sec : Row, alGet idx (toString d.id) = some sec ∧ sec.id = r.id
      · obtain ⟨sec, halg, hsid⟩ := happ
        have hup : upd_one idx pay d r = ⟨r.id, payload_merge r.cells (pay d)⟩ := by
          unfold upd_one
          rw [halg]
          have hbe : (r.id == sec.id) = true := by simp [hsid]
          simp [hbe]
        rcases upd_all_cases idx pay ds (upd_one idx pay d r) with h1 | ⟨d2, hd2, happ2, cells, hc⟩
        · refine Or.inr ⟨d, List.mem_cons_self _ _, ⟨sec, halg, hsid⟩, r.cells, ?_⟩
          rw [h1, hup]
        · have hid : (upd_one idx pay d r).id = r.id := upd_one_id idx pay d r
          refine Or.inr ⟨d2, List.mem_cons_of_mem _ hd2, ?_, cells, ?_⟩
          · obtain ⟨sec2, halg2, hsid2⟩ := happ2
            exact ⟨sec2, halg2, by rw [hsid2, hid]⟩
          · rw [hc, hid]
      · have hup : upd_one idx pay d r = r :=
          upd_one_not_applicable idx pay d r
            (fun sec halg hid => happ ⟨sec, halg, hid⟩)
        rw [hup]
        rcases upd_all_cases idx pay ds r with h1 | ⟨d2, hd2, happ2, cells, hc⟩
        · exact Or.inl h1
        · exact Or.inr ⟨d2, List.mem_cons_of_mem _ hd2, happ2, cells, hc⟩

/-- Every created row holds one unmatched desired row's payload under an id
at least the starting fresh id. -/
theorem created_rows_mem (idx : List (String × Row)) (pay : Row → List (String × Val)) :
    ∀ (ds : List Row) (n : Nat) (r : Row),
      r ∈ created_rows idx pay ds n →
      ∃ d ∈ ds, r.cells = pay d ∧ n ≤ r.id
  | [], _, _, h => by cases h
  | d :: ds, n, r, h => by
      unfold created_rows at h
      cases halg : alGet idx (toString d.id) with
      | some sec =>
          rw [halg] at h
          simp only [Option.isSome_some, if_true] at h
          obtain ⟨d2, hd2, hc, hn⟩ := created_rows_mem idx pay ds n r h
          exact ⟨d2, List.mem_cons_of_mem _ hd2, hc, hn⟩
      | none =>
          rw [halg] at h
          simp only [Option.isSome_none, Bool.false_eq_true, if_false] at h
          rcases List.mem_cons.mp h with rfl | h2
          · exact ⟨d, List.mem_cons_self _ _, rfl, Nat.le_refl _⟩
          · obtain ⟨d2, hd2, hc, hn⟩ := created_rows_mem idx pay ds (n + 1) r h2
            exact ⟨d2, List.mem_cons_of_mem _ hd2, hc, Nat.le_of_succ_le hn⟩

/-- Every unmatched desired row gets a created row holding its payload. -/
theorem created_rows_exists (idx : List (String × Row)) (pay : Row → List (String × Val)) :
    ∀ (ds : List Row) (n : Nat) (d : Row),
      d ∈ ds → alGet idx (toString d.id) = none →
      ∃ r ∈ created_rows idx pay ds n, r.cells = pay d
  | [], _, _, hd, _ => by cases hd
  | d2 :: ds, n, d, hd, halg => by
      unfold created_rows
      rcases List.mem_cons.mp hd with rfl | hd2
      · rw [halg]
        simp only [Option.isSome_none, Bool.false_eq_true, if_false]
        exact ⟨⟨n, pay d⟩, List.mem_cons_self _ _, rfl⟩
      · cases halg2 : alGet idx (toString d2.id) with
        | some sec =>
            simp only [Option.isSome_some, if_true]
            obtain ⟨r, hr, hc⟩ := created_rows_exists idx pay ds n d hd2 halg
            exact ⟨r, hr, hc⟩
        | none =>
            simp only [Option.isSome_none, Bool.false_eq_true, if_false]
            obtain ⟨r, hr, hc⟩ := created_rows_exists idx pay ds (n + 1) d hd2 halg
            exact ⟨r, List.mem_cons_of_mem _ hr, hc⟩

/-- Applying the upsert phase of a plan: every existing row is rewritten by
the updates that target its id, and one fresh-id row per unmatched desired
row is appended, in order. -/
theorem apply_upserts (tracker_key : String) (f_map : List (String × String))
    (opt_map : List (String × List (String × Int))) (idx : List (String × Row)) :
    ∀ (ds : List Row) (n : Nat) (rows : List Row),
      (∀ kr ∈ idx, kr.2.id < n) →
      apply_ops (n, rows) (ds.map (upsert_op tracker_key f_map opt_map idx))
        = (n + ds.countP (fun d => (alGet idx (toString d.id)).isNone),
           rows.map (upd_all idx (build_payload tracker_key f_map opt_map) ds)
             ++ created_rows idx (build_payload tracker_key f_map opt_map) ds n)
  | [], n, rows, _ => by
      have hm : rows.map (upd_all idx (build_payload tracker_key f_map opt_map) []) = rows :=
        (List.map_congr_left (fun r _ => rfl)).trans (List.map_id rows)
      simp [apply_ops, created_rows, hm]
  | d :: ds, n, rows, hfresh => by
      simp only [List.map_cons]
      unfold apply_ops
      rw [List.foldl_cons]
      cases halg : alGet idx (toString d.id) with
      | some sec =>
          have hop : apply_op (n, rows) (upsert_op tracker_key f_map opt_map idx d)
              = (n, rows.map (fun r =>
                  if r.id == sec.id
                  then ⟨r.id, payload_merge r.cells
                    (build_payload tracker_key f_map opt_map d)⟩
                  else r)) := by
            unfold upsert_op
            rw [halg]
            rfl
          rw [hop]
          have ih := apply_upserts tracker_key f_map opt_map idx ds n
            (rows.map (fun r =>
              if r.id == sec.id
              then ⟨r.id, payload_merge r.cells
                (build_payload tracker_key f_map opt_map d)⟩
              else r)) hfresh
          unfold apply_ops at ih
          rw [ih, List.map_map]
          have hcnt : (d :: ds).countP (fun d => (alGet idx (toString d.id)).isNone)
              = ds.countP (fun d => (alGet idx (toString d.id)).isNone) := by
            rw [List.countP_cons]
            simp [halg]
          rw [hcnt]
          have hcre : created_rows idx (build_payload tracker_key f_map opt_map) (d :: ds) n
              = created_rows idx (build_payload tracker_key f_map opt_map) ds n := by
            conv_lhs => unfold created_rows
            rw [halg]
            simp
          rw [hcre]
          have hmap : rows.map ((upd_all idx (build_payload tracker_key f_map opt_map) ds)
                ∘ (fun r =>
                  if r.id == sec.id
                  then ⟨r.id, payload_merge r.cells
                    (build_payload tracker_key f_map opt_map d)⟩
                  else r))
              = rows.map (upd_all idx (build_payload tracker_key f_map opt_map) (d :: ds)) := by
            refine List.map_congr_left ?_
            intro r _
            rw [Function.comp_apply, upd_all_cons]
            congr 1
            unfold upd_one
            rw [halg]
          rw [hmap]
      | none =>
          have hop : apply_op (n, rows) (upsert_op tracker_key f_map opt_map idx d)
              = (n + 1, rows ++ [⟨n, build_payload tracker_key f_map opt_map d⟩]) := by
            unfold upsert_op
            rw [halg]
            rfl
          rw [hop]
          have ih := apply_upserts tracker_key f_map opt_map idx ds (n + 1)
            (rows ++ [⟨n, build_payload tracker_key f_map opt_map d⟩])
            (fun kr hkr => Nat.lt_succ_of_lt (hfresh kr hkr))
          unfold apply_ops at ih
          rw [ih]
          have hcnt : n + 1 + ds.countP (fun d => (alGet idx (toString d.id)).isNone)
              = n + (d :: ds).countP (fun d => (alGet idx (toString d.id)).isNone) := by
            rw [List.countP_cons]
            simp [halg]
            omega
          rw [hcnt]
          have hcre : created_rows idx (build_payload tracker_key f_map opt_map) (d :: ds) n
              = ⟨n, build_payload tracker_key f_map opt_map d⟩
                  :: created_rows idx (build_payload tracker_key f_map opt_map) ds (n + 1) := by
            conv_lhs => unfold created_rows
            rw [halg]
            simp
          rw [hcre]
          rw [List.map_append]
          have hone : [(⟨n, build_payload tracker_key f_map opt_map d⟩ : Row)].map
                (upd_all idx (build_payload tracker_key f_map opt_map) ds)
              = [⟨n, build_payload tracker_key f_map opt_map d⟩] := by
            simp only [List.map_cons, List.map_nil]
            rw [upd_all_untouched idx (build_payload tracker_key f_map opt_map) ds _
              (fun kr hkr => Nat.ne_of_lt (hfresh kr hkr))]
          rw [hone]
          have hmap : rows.map (upd_all idx (build_payload tracker_key f_map opt_map) ds)
              = rows.map (upd_all idx (build_payload tracker_key f_map opt_map) (d :: ds)) := by
            refine List.map_congr_left ?_
            intro r _
            rw [upd_all_cons]
            congr 1
            unfold upd_one
            rw [halg]
          rw [hmap, List.append_assoc]
          rfl

theorem contains_eq_true_of_mem {α : Type} [BEq α] [LawfulBEq α] {l : List α} {a : α}
    (h : a ∈ l) : l.contains a = true := List.elem_iff.mpr h

theorem mem_of_contains_eq_true {α : Type} [BEq α] [LawfulBEq α] {l : List α} {a : α}
    (h : l.contains a = true) : a ∈ l := List.elem_iff.mp h

/-- Claim C2, counterexample to the claim as stated: one desired row, empty
target table; the first run creates the row, and the second run — with no
source changes — still issues one (unconditional) update, not zero
operations. -/
theorem C2_counterexample :
    sync_partition "tr" [] [] [⟨1, []⟩]
        (apply_ops (1000, []) (sync_partition "tr" [] [] [⟨1, []⟩] [])).2
      = [Op.update 1000 [("tr", .vstr "1")]] := rfl

/-- Claim C2 (amended): running the reconciliation a second time immediately
after a fully successful run, with no source changes in between, issues zero
creates and zero deletes, but one update per desired row — the code PATCHes
every matched row unconditionally.  Hypotheses: no cloned field is mapped
onto the tracker column; row ids in the stored table are unique; the
service's fresh ids start above every stored id; stored truthy tracker
values are unique (the spec's §3 invariant). -/
theorem C2_second_run (tracker_key : String) (f_map : List (String × String))
    (opt_map : List (String × List (String × Int)))
    (target_rows sec_rows : List Row) (n0 : Nat)
    (htr : ∀ q ∈ f_map, q.2 ≠ tracker_key)
    (hids : ∀ r ∈ sec_rows, ∀ r2 ∈ sec_rows, r.id = r2.id → r = r2)
    (hfresh : ∀ r ∈ sec_rows, r.id < n0)
    (huniq : ∀ r ∈ sec_rows, ∀ r2 ∈ sec_rows,
      (r.get tracker_key).truthy = true → (r2.get tracker_key).truthy = true →
      pyStr (r.get tracker_key) = pyStr (r2.get tracker_key) → r = r2) :
    (sync_partition tracker_key f_map opt_map target_rows
        (apply_ops (n0, sec_rows)
          (sync_partition tracker_key f_map opt_map target_rows sec_rows)).2).countP
      Op.isCreate = 0
    ∧ (sync_partition tracker_key f_map opt_map target_rows
        (apply_ops (n0, sec_rows)
          (sync_partition tracker_key f_map opt_map target_rows sec_rows)).2).countP
      Op.isDelete = 0
    ∧ (sync_partition tracker_key f_map opt_map target_rows
        (apply_ops (n0, sec_rows)
          (sync_partition tracker_key f_map opt_map target_rows sec_rows)).2).countP
      Op.isUpdate = target_rows.length := by
  have hidxfresh : ∀ kr ∈ sec_by_origin tracker_key sec_rows, kr.2.id < n0 :=
    fun kr hkr => hfresh kr.2 (sec_by_origin_mem tracker_key sec_rows kr hkr).1
  have hst1 : (apply_ops (n0, sec_rows)
      (sync_partition tracker_key f_map opt_map target_rows sec_rows)).2
      = (sec_rows.map (upd_all (sec_by_origin tracker_key sec_rows)
            (build_payload tracker_key f_map opt_map) target_rows)
          ++ created_rows (sec_by_origin tracker_key sec_rows)
              (build_payload tracker_key f_map opt_map) target_rows n0).filter
          (fun r => !(((sec_by_origin tracker_key sec_rows).filter
              (fun kr => !(desired_ids target_rows).contains kr.1)).map
                (fun kr => kr.2.id)).contains r.id) := by
    rw [sync_partition_eq]
    unfold apply_ops
    rw [List.foldl_append]
    have hup := apply_upserts tracker_key f_map opt_map (sec_by_origin tracker_key sec_rows)
      target_rows n0 sec_rows hidxfresh
    unfold apply_ops at hup
    rw [hup]
    have hdeq : (sec_by_origin tracker_key sec_rows).filterMap
        (fun kr => if (desired_ids target_rows).contains kr.1 then none
          else some (Op.delete kr.2.id))
        = (((sec_by_origin tracker_key sec_rows).filter
            (fun kr => !(desired_ids target_rows).contains kr.1)).map
              (fun kr => kr.2.id)).map Op.delete := by
      rw [filterMap_if_eq_map, List.map_map]
      rfl
    rw [hdeq]
    have hdl := apply_delete_list
      (((sec_by_origin tracker_key sec_rows).filter
          (fun kr => !(desired_ids target_rows).contains kr.1)).map (fun kr => kr.2.id))
      (n0 + target_rows.countP
          (fun d => (alGet (sec_by_origin tracker_key sec_rows) (toString d.id)).isNone),
       sec_rows.map (upd_all (sec_by_origin tracker_key sec_rows)
          (build_payload tracker_key f_map opt_map) target_rows)
        ++ created_rows (sec_by_origin tracker_key sec_rows)
            (build_payload tracker_key f_map opt_map) target_rows n0)
    unfold apply_ops at hdl
    rw [hdl]
  rw [hst1]
  have horph_lt : ∀ i ∈ ((sec_by_origin tracker_key sec_rows).filter
      (fun kr => !(desired_ids target_rows).contains kr.1)).map (fun kr => kr.2.id),
      i < n0 := by
    intro i hi
    obtain ⟨kr, hkr, hkr2⟩ := List.mem_map.mp hi
    have hmemf := (List.mem_filter.mp hkr).1
    rw [← hkr2]
    exact hidxfresh kr hmemf
  have hA : ∀ r ∈ (sec_rows.map (upd_all (sec_by_origin tracker_key sec_rows)
        (build_payload tracker_key f_map opt_map) target_rows)
      ++ created_rows (sec_by_origin tracker_key sec_rows)
          (build_payload tracker_key f_map opt_map) target_rows n0).filter
      (fun r => !(((sec_by_origin tracker_key sec_rows).filter
          (fun kr => !(desired_ids target_rows).contains kr.1)).map
            (fun kr => kr.2.id)).contains r.id),
      (r.get tracker_key).truthy = true →
      pyStr (r.get tracker_key) ∈ desired_ids target_rows := by
    intro r hr ht
    have hfil := List.mem_filter.mp hr
    rcases List.mem_append.mp hfil.1 with hmap | hcre
    · obtain ⟨r0, hr0, hupd⟩ := List.mem_map.mp hmap
      rcases upd_all_cases (sec_by_origin tracker_key sec_rows)
          (build_payload tracker_key f_map opt_map) target_rows r0
        with hsame | ⟨d, hd, _, cells, hcells⟩
      · have hreq : r = r0 := by rw [← hupd, hsame]
        subst hreq
        by_contra hnot
        have hidx0 : alGet (sec_by_origin tracker_key sec_rows)
            (pyStr (r.get tracker_key)) = some r :=
          sec_by_origin_complete tracker_key sec_rows huniq r hr0 ht
        have hcont : (desired_ids target_rows).contains (pyStr (r.get tracker_key)) = false := by
          by_contra hcc
          exact hnot (List.elem_iff.mp (by simpa using hcc))
        have hin : r.id ∈ ((sec_by_origin tracker_key sec_rows).filter
            (fun kr => !(desired_ids target_rows).contains kr.1)).map (fun kr => kr.2.id) := by
          refine List.mem_map.mpr ⟨(pyStr (r.get tracker_key), r), ?_, rfl⟩
          refine List.mem_filter.mpr ⟨alGet_mem hidx0, ?_⟩
          rw [hcont]
          rfl
        have hkeep := hfil.2
        rw [contains_eq_true_of_mem hin] at hkeep
        simp at hkeep
      · have htr_val : r.get tracker_key = .vstr (toString d.id) := by
          rw [← hupd, hcells]
          exact merged_row_get_tracker tracker_key f_map opt_map d r0.id cells htr
        rw [htr_val]
        exact List.mem_map.mpr ⟨d, hd, rfl⟩
    · obtain ⟨d, hd, hc, _⟩ := created_rows_mem (sec_by_origin tracker_key sec_rows)
        (build_payload tracker_key f_map opt_map) target_rows n0 r hcre
      have htr_val : r.get tracker_key = .vstr (toString d.id) := by
        unfold Row.get
        rw [hc, build_payload_tracker tracker_key f_map opt_map d htr]
        rfl
      rw [htr_val]
      exact List.mem_map.mpr ⟨d, hd, rfl⟩
  have hB : ∀ p ∈ target_rows,
      ∃ rw2 ∈ (sec_rows.map (upd_all (sec_by_origin tracker_key sec_rows)
            (build_payload tracker_key f_map opt_map) target_rows)
          ++ created_rows (sec_by_origin tracker_key sec_rows)
              (build_payload tracker_key f_map opt_map) target_rows n0).filter
          (fun r => !(((sec_by_origin tracker_key sec_rows).filter
              (fun kr => !(desired_ids target_rows).contains kr.1)).map
                (fun kr => kr.2.id)).contains r.id),
        (rw2.get tracker_key).truthy = true
          ∧ pyStr (rw2.get tracker_key) = toString p.id := by
    intro p hp
    cases halg : alGet (sec_by_origin tracker_key sec_rows) (toString p.id) with
    | some sec =>
        have hsec1 : sec ∈ sec_rows :=
          (sec_by_origin_mem tracker_key sec_rows (toString p.id, sec) (alGet_mem halg)).1
        have hsect : (sec.get tracker_key).truthy = true :=
          (sec_by_origin_mem tracker_key sec_rows (toString p.id, sec) (alGet_mem halg)).2.1
        have hseck : toString p.id = pyStr (sec.get tracker_key) :=
          (sec_by_origin_mem tracker_key sec_rows (toString p.id, sec) (alGet_mem halg)).2.2
        have hkeep : ((((sec_by_origin tracker_key sec_rows).filter
            (fun kr => !(desired_ids target_rows).contains kr.1)).map
              (fun kr => kr.2.id)).contains
            (upd_all (sec_by_origin tracker_key sec_rows)
              (build_payload tracker_key f_map opt_map) target_rows sec).id) = false := by
          rw [upd_all_id]
          cases hb : (((sec_by_origin tracker_key sec_rows).filter
              (fun kr => !(desired_ids target_rows).contains kr.1)).map
                (fun kr => kr.2.id)).contains sec.id with
          | false => rfl
          | true =>
            exfalso
            have hcc' : sec.id ∈ ((sec_by_origin tracker_key sec_rows).filter
                (fun kr => !(desired_ids target_rows).contains kr.1)).map
                  (fun kr => kr.2.id) := mem_of_contains_eq_true hb
            obtain ⟨kr, hkr, hkrid⟩ := List.mem_map.mp hcc'
            have hkrf := List.mem_filter.mp hkr
            have hkr2mem : kr.2 ∈ sec_rows :=
              (sec_by_origin_mem tracker_key sec_rows kr hkrf.1).1
            have hkr2key : kr.1 = pyStr (kr.2.get tracker_key) :=
              (sec_by_origin_mem tracker_key sec_rows kr hkrf.1).2.2
            have hkr_eq : kr.2 = sec := hids kr.2 hkr2mem sec hsec1 hkrid
            have hkey : kr.1 = toString p.id := by
              rw [hkr2key, hkr_eq, ← hseck]
            have hdes : (desired_ids target_rows).contains kr.1 = true := by
              rw [hkey]
              exact contains_eq_true_of_mem (List.mem_map.mpr ⟨p, hp, rfl⟩)
            have hkrf2 := hkrf.2
            rw [hdes] at hkrf2
            simp at hkrf2
        refine ⟨upd_all (sec_by_origin tracker_key sec_rows)
            (build_payload tracker_key f_map opt_map) target_rows sec, ?_, ?_⟩
        · refine List.mem_filter.mpr ⟨List.mem_append.mpr (Or.inl
            (List.mem_map.mpr ⟨sec, hsec1, rfl⟩)), ?_⟩
          rw [hkeep]
          rfl
        · rcases upd_all_cases (sec_by_origin tracker_key sec_rows)
              (build_payload tracker_key f_map opt_map) target_rows sec
            with hsame | ⟨d, hd, happ, cells, hcells⟩
          · rw [hsame]
            exact ⟨hsect, hseck.symm⟩
          · obtain ⟨sec2, halg2, hsid2⟩ := happ
            have hsec2m : sec2 ∈ sec_rows :=
              (sec_by_origin_mem tracker_key sec_rows (toString d.id, sec2)
                (alGet_mem halg2)).1
            have hsec2k : toString d.id = pyStr (sec2.get tracker_key) :=
              (sec_by_origin_mem tracker_key sec_rows (toString d.id, sec2)
                (alGet_mem halg2)).2.2
            have hsec2_eq : sec2 = sec := hids sec2 hsec2m sec hsec1 hsid2
            have hdid : toString d.id = toString p.id := by
              rw [hsec2k, hsec2_eq, ← hseck]
            rw [hcells]
            rw [merged_row_get_tracker tracker_key f_map opt_map d sec.id cells htr]
            constructor
            · show (!(toString d.id == "")) = true
              simp [nat_repr_ne_empty d.id]
            · show toString d.id = toString p.id
              exact hdid
    | none =>
        obtain ⟨r, hr, hc⟩ := created_rows_exists (sec_by_origin tracker_key sec_rows)
          (build_payload tracker_key f_map opt_map) target_rows n0 p hp halg
        have hge := (created_rows_mem (sec_by_origin tracker_key sec_rows)
          (build_payload tracker_key f_map opt_map) target_rows n0 r hr).choose_spec
        obtain ⟨d0, hd0, hc0, hn0le⟩ := created_rows_mem (sec_by_origin tracker_key sec_rows)
          (build_payload tracker_key f_map opt_map) target_rows n0 r hr
        have hkeep : ((((sec_by_origin tracker_key sec_rows).filter
            (fun kr => !(desired_ids target_rows).contains kr.1)).map
              (fun kr => kr.2.id)).contains r.id) = false := by
          cases hb : (((sec_by_origin tracker_key sec_rows).filter
              (fun kr => !(desired_ids target_rows).contains kr.1)).map
                (fun kr => kr.2.id)).contains r.id with
          | false => rfl
          | true =>
            exfalso
            have := horph_lt r.id (mem_of_contains_eq_true hb)
            omega
        have htr_val : r.get tracker_key = .vstr (toString p.id) := by
          unfold Row.get
          rw [hc, build_payload_tracker tracker_key f_map opt_map p htr]
          rfl
        refine ⟨r, ?_, ?_⟩
        · refine List.mem_filter.mpr ⟨List.mem_append.mpr (Or.inr hr), ?_⟩
          rw [hkeep]
          rfl
        · rw [htr_val]
          refine ⟨?_, rfl⟩
          show (!(toString p.id == "")) = true
          simp [nat_repr_ne_empty p.id]
  have hkeys : ∀ kr ∈ sec_by_origin tracker_key
      ((sec_rows.map (upd_all (sec_by_origin tracker_key sec_rows)
          (build_payload tracker_key f_map opt_map) target_rows)
        ++ created_rows (sec_by_origin tracker_key sec_rows)
            (build_payload tracker_key f_map opt_map) target_rows n0).filter
        (fun r => !(((sec_by_origin tracker_key sec_rows).filter
            (fun kr => !(desired_ids target_rows).contains kr.1)).map
              (fun kr => kr.2.id)).contains r.id)),
      (desired_ids target_rows).contains kr.1 = true := by
    intro kr hkr
    have h := sec_by_origin_mem tracker_key _ kr hkr
    have hmem := hA kr.2 h.1 h.2.1
    rw [h.2.2]
    exact List.elem_iff.mpr hmem
  have hsome : ∀ p ∈ target_rows, ∃ sec, alGet (sec_by_origin tracker_key
      ((sec_rows.map (upd_all (sec_by_origin tracker_key sec_rows)
          (build_payload tracker_key f_map opt_map) target_rows)
        ++ created_rows (sec_by_origin tracker_key sec_rows)
            (build_payload tracker_key f_map opt_map) target_rows n0).filter
        (fun r => !(((sec_by_origin tracker_key sec_rows).filter
            (fun kr => !(desired_ids target_rows).contains kr.1)).map
              (fun kr => kr.2.id)).contains r.id)))
      (toString p.id) = some sec := by
    intro p hp
    obtain ⟨rw2, hrw2, ht2, hkey2⟩ := hB p hp
    rw [sec_by_origin_get_find]
    have hs : ((((sec_rows.map (upd_all (sec_by_origin tracker_key sec_rows)
          (build_payload tracker_key f_map opt_map) target_rows)
        ++ created_rows (sec_by_origin tracker_key sec_rows)
            (build_payload tracker_key f_map opt_map) target_rows n0).filter
        (fun r => !(((sec_by_origin tracker_key sec_rows).filter
            (fun kr => !(desired_ids target_rows).contains kr.1)).map
              (fun kr => kr.2.id)).contains r.id)).reverse).find?
        (fun r => (r.get tracker_key).truthy
          && (pyStr (r.get tracker_key) == toString p.id))).isSome := by
      refine List.find?_isSome.mpr ⟨rw2, List.mem_reverse.mpr hrw2, ?_⟩
      simp [ht2, hkey2]
    exact Option.isSome_iff_exists.mp hs
  rw [sync_partition_eq]
  have hd2 : (sec_by_origin tracker_key
      ((sec_rows.map (upd_all (sec_by_origin tracker_key sec_rows)
          (build_payload tracker_key f_map opt_map) target_rows)
        ++ created_rows (sec_by_origin tracker_key sec_rows)
            (build_payload tracker_key f_map opt_map) target_rows n0).filter
        (fun r => !(((sec_by_origin tracker_key sec_rows).filter
            (fun kr => !(desired_ids target_rows).contains kr.1)).map
              (fun kr => kr.2.id)).contains r.id))).filterMap
      (fun kr => if (desired_ids target_rows).contains kr.1 then none
        else some (Op.delete kr.2.id)) = [] := by
    refine List.filterMap_eq_nil_iff.mpr ?_
    intro kr hkr
    rw [hkeys kr hkr]
    rfl
  rw [hd2, List.append_nil]
  have hshape : ∀ p ∈ target_rows, ∃ sec : Row,
      upsert_op tracker_key f_map opt_map (sec_by_origin tracker_key
        ((sec_rows.map (upd_all (sec_by_origin tracker_key sec_rows)
            (build_payload tracker_key f_map opt_map) target_rows)
          ++ created_rows (sec_by_origin tracker_key sec_rows)
              (build_payload tracker_key f_map opt_map) target_rows n0).filter
          (fun r => !(((sec_by_origin tracker_key sec_rows).filter
              (fun kr => !(desired_ids target_rows).contains kr.1)).map
                (fun kr => kr.2.id)).contains r.id))) p
        = Op.update sec.id (build_payload tracker_key f_map opt_map p) := by
    intro p hp
    obtain ⟨sec, hsec⟩ := hsome p hp
    refine ⟨sec, ?_⟩
    unfold upsert_op
    rw [hsec]
  refine ⟨?_, ?_, ?_⟩
  · refine List.countP_eq_zero.mpr ?_
    intro op hop
    obtain ⟨p, hp, hpe⟩ := List.mem_map.mp hop
    obtain ⟨sec, hsec⟩ := hshape p hp
    rw [← hpe, hsec]
    simp [Op.isCreate]
  · refine List.countP_eq_zero.mpr ?_
    intro op hop
    obtain ⟨p, hp, hpe⟩ := List.mem_map.mp hop
    obtain ⟨sec, hsec⟩ := hshape p hp
    rw [← hpe, hsec]
    simp [Op.isDelete]
  · have hlen : (target_rows.map (upsert_op tracker_key f_map opt_map
        (sec_by_origin tracker_key
          ((sec_rows.map (upd_all (sec_by_origin tracker_key sec_rows)
              (build_payload tracker_key f_map opt_map) target_rows)
            ++ created_rows (sec_by_origin tracker_key sec_rows)
                (build_payload tracker_key f_map opt_map) target_rows n0).filter
            (fun r => !(((sec_by_origin tracker_key sec_rows).filter
                (fun kr => !(desired_ids target_rows).contains kr.1)).map
                  (fun kr => kr.2.id)).contains r.id))))).countP Op.isUpdate
      = (target_rows.map (upsert_op tracker_key f_map opt_map
        (sec_by_origin tracker_key
          ((sec_rows.map (upd_all (sec_by_origin tracker_key sec_rows)
              (build_payload tracker_key f_map opt_map) target_rows)
            ++ created_rows (sec_by_origin tracker_key sec_rows)
                (build_payload tracker_key f_map opt_map) target_rows n0).filter
            (fun r => !(((sec_by_origin tracker_key sec_rows).filter
                (fun kr => !(desired_ids target_rows).contains kr.1)).map
                  (fun kr => kr.2.id)).contains r.id))))).length := by
      refine List.countP_eq_length.mpr ?_
      intro op hop
      obtain ⟨p, hp, hpe⟩ := List.mem_map.mp hop
      obtain ⟨sec, hsec⟩ := hshape p hp
      rw [← hpe, hsec]
      rfl
    rw [hlen, List.length_map]

/-- Claim C2, witness: the concrete second run of the counterexample input
issues no create, no delete, and exactly one update. -/
theorem C2_witness :
    (sync_partition "tr" [] [] [⟨1, []⟩]
        (apply_ops (1000, []) (sync_partition "tr" [] [] [⟨1, []⟩] [])).2).countP
      Op.isCreate = 0
    ∧ (sync_partition "tr" [] [] [⟨1, []⟩]
        (apply_ops (1000, []) (sync_partition "tr" [] [] [⟨1, []⟩] [])).2).countP
      Op.isDelete = 0
    ∧ (sync_partition "tr" [] [] [⟨1, []⟩]
        (apply_ops (1000, []) (sync_partition "tr" [] [] [⟨1, []⟩] [])).2).countP
      Op.isUpdate = 1 :=
  C2_second_run "tr" [] [] [⟨1, []⟩] [] 1000 (by simp) (by simp) (by simp) (by simp)

end BaserowSplitter
